import Mathlib

set_option maxHeartbeats 1000000

/-!
Verification development for the cpuprofile core (`lib/profile.js` and
`lib/profile_node.js`).

Modelling conventions:
* JavaScript numbers are modelled as rationals (`ℚ`).  The algorithms only
  add, multiply and divide, so this is exact; division by zero (which in JS
  yields `Infinity`/`NaN`) is the rational convention `x / 0 = 0` and is
  flagged explicitly where it matters.
* The mutable work-list loops of `translatedRoot` and `remainingNodeInfos`
  are embedded as fuel-indexed structural recursions over explicit queues.
  The source loops forever on a cyclic `children` graph; the embedding
  returns `none` (for `translatedRoot`) or stops (for the traversal) when
  the fuel runs out, and all theorems either supply sufficient fuel or take
  a successful run as a hypothesis.
* `ProfileNode.callUID` is a string computed from the call frame in the
  constructor.  Every node whose `callUID` the algorithm reads is a clone
  created after construction-time renaming, so the embedding derives
  `callUID` from the current call frame.
-/

/-- The `callFrame` record of a profile node: the fields read by the core
(`functionName`, `scriptId`, `url`, `lineNumber`, `columnNumber`). -/
structure CallFrame where
  functionName : String
  scriptId : String
  url : String
  lineNumber : Int
  columnNumber : Int
deriving DecidableEq, Repr

instance : Inhabited CallFrame :=
  ⟨⟨"", "", "", 0, 0⟩⟩

/-- The placeholder assigned by `Profile._nameAnonymousFunctions`. -/
def anonymousName : String := "(anonymous function)"

/-- The url marker of a native frame (`ProfileNode.isNativeNode`). -/
def nativeMarker : String := "native "

/-- `ProfileNode.isNativeNode`: `!!this.callFrame.url && url.startsWith('native ')`.
An empty string is falsy in JS; `startsWith` tests a character prefix, which
the embedding expresses over the strings' character lists. -/
def CallFrame.isNative (cf : CallFrame) : Bool :=
  !(cf.url == "") && nativeMarker.data.isPrefixOf cf.url.data

/-- `ProfileNode.callUID`:
`` `${functionName}@${scriptId}:${lineNumber}` ``. -/
def CallFrame.callUID (cf : CallFrame) : String :=
  cf.functionName ++ "@" ++ cf.scriptId ++ ":" ++ toString cf.lineNumber

/-- A flat profile node, as produced by the `ProfileNode` constructor:
`children` is normalised to an array (`children || []`), `positionTicks`
and `deoptReason` are opaque pass-through fields and are omitted,
`selfTime`/`totalTime` start at 0. -/
structure ProfileNode where
  id : Nat
  callFrame : CallFrame
  hitCount : Nat
  children : List Nat
  selfTime : ℚ
  totalTime : ℚ
deriving DecidableEq, Repr

/-- The `ProfileNode` constructor applied to raw fields. -/
def ProfileNode.create (id : Nat) (cf : CallFrame) (hit : Nat) (children : List Nat) :
    ProfileNode :=
  ⟨id, cf, hit, children, 0, 0⟩

def ProfileNode.isNativeNode (n : ProfileNode) : Bool :=
  n.callFrame.isNative

def ProfileNode.callUID (n : ProfileNode) : String :=
  n.callFrame.callUID

/-- The `Profile` object after its constructor ran: `nodes` carries the
self times assigned by `_assignInitialSelfTimes` and the names assigned by
`_nameAnonymousFunctions`; `samplingInterval` was set by
`_determineSamplingInterval`.  `samples`/`timeDeltas` are pass-through. -/
structure Profile where
  nodes : List ProfileNode
  startTime : ℚ
  endTime : ℚ
  samplingInterval : ℚ
  samples : List Nat
  timeDeltas : List ℚ
deriving DecidableEq, Repr

/-- `reduce((acc, node) => acc + node.hitCount, 0)`. -/
def totalHitCount (ns : List ProfileNode) : Nat :=
  ns.foldl (fun acc n => acc + n.hitCount) 0

/-- `_assignInitialSelfTimes`: `selfTime = hitCount * samplingInterval / 1000`. -/
def assignInitialSelfTimes (si : ℚ) (ns : List ProfileNode) : List ProfileNode :=
  ns.map (fun n => { n with selfTime := (n.hitCount * si) / 1000 })

/-- `_nameAnonymousFunctions`: empty `functionName` becomes the placeholder. -/
def nameAnonymousFunctions (ns : List ProfileNode) : List ProfileNode :=
  ns.map (fun n =>
    if n.callFrame.functionName = "" then
      { n with callFrame := { n.callFrame with functionName := anonymousName } }
    else n)

/-- The `Profile` constructor: computes the sampling interval (JS divides even
when the total hit count is zero, silently producing a non-finite number; the
rational model yields `0` — either way no error is signalled), assigns initial
self times, then renames anonymous functions. -/
def mkProfile (ns : List ProfileNode) (startTime endTime : ℚ)
    (samples : List Nat) (timeDeltas : List ℚ) : Profile :=
  let si := (endTime - startTime) / (totalHitCount ns : ℚ)
  ⟨nameAnonymousFunctions (assignInitialSelfTimes si ns), startTime, endTime, si,
    samples, timeDeltas⟩

/-- `_idToNodeMap`: `Map.set` for each node in order, so a duplicated id keeps
the last node; `get` of an absent id is `undefined` (`none`). -/
def idLookup (ns : List ProfileNode) (i : Nat) : Option ProfileNode :=
  ns.reverse.find? (fun n => n.id == i)

/-- A node of the translated (reconstructed) tree.  Tree nodes are
`ProfileNode` clones whose `children` are direct references; `depth` and
`parent` are assigned by a second traversal and are recoverable from the
tree structure (the `parent` field is only ever read as a root test), so
they are not stored. -/
inductive TreeNode where
  | node (callFrame : CallFrame) (id : Nat) (hitCount : Nat)
      (selfTime : ℚ) (totalTime : ℚ) (children : List TreeNode)
deriving Repr

instance : Inhabited TreeNode :=
  ⟨.node default 0 0 0 0 []⟩

def TreeNode.callFrame : TreeNode → CallFrame
  | .node cf _ _ _ _ _ => cf

def TreeNode.id : TreeNode → Nat
  | .node _ i _ _ _ _ => i

def TreeNode.hitCount : TreeNode → Nat
  | .node _ _ h _ _ _ => h

def TreeNode.selfTime : TreeNode → ℚ
  | .node _ _ _ s _ _ => s

def TreeNode.totalTime : TreeNode → ℚ
  | .node _ _ _ _ t _ => t

def TreeNode.children : TreeNode → List TreeNode
  | .node _ _ _ _ _ cs => cs

def TreeNode.callUID (t : TreeNode) : String :=
  t.callFrame.callUID

mutual

def treeSize : TreeNode → Nat
  | .node _ _ _ _ _ cs => 1 + treeSizeList cs

def treeSizeList : List TreeNode → Nat
  | [] => 0
  | t :: ts => treeSize t + treeSizeList ts

end

/-- The work-list loop of `translatedRoot` (lines 93–117 of `profile.js`),
embedded over the queue of pending `(parent, sourceNode)` pairs that share
the current effective parent.  `pairs.pop()` takes the most recently pushed
pair, so a popped node's whole subtree is finished before its left
neighbours; compositionally, the head of the queue is processed first.

For a non-native source node a clone is attached (`parentNode.children.push`)
and becomes the parent of its own children; for a native one no node is
created, its self time is accumulated for the current parent (the returned
`ℚ`), and its children are walked with the unchanged parent.  A dangling
child id makes the source throw (`undefined.children`): the embedding
returns `none`, as it also does when the fuel runs out (which on a cyclic
graph mirrors the source's divergence).  The guard of lines 101–103
(`if (!sourceNode.children)`) is dead for `ProfileNode` instances: the
constructor normalises `children` to an array and arrays are truthy. -/
def buildF (g : Nat → Option ProfileNode) : Nat → List Nat → Option (List TreeNode × ℚ)
  | _, [] => some ([], 0)
  | 0, _ :: _ => none
  | fuel + 1, i :: rest =>
    match g i with
    | none => none
    | some n =>
      if n.isNativeNode then
        match buildF g fuel (n.children.reverse ++ rest) with
        | none => none
        | some (ts, q) => some (ts, q + n.selfTime)
      else
        match buildF g fuel n.children.reverse with
        | none => none
        | some (cs, qc) =>
          match buildF g fuel rest with
          | none => none
          | some (ts, qr) =>
            some (.node n.callFrame n.id n.hitCount (n.selfTime + qc) n.totalTime cs :: ts, qr)

/-- The self time a queue folds into its shared parent: the sum, over native
nodes reachable from the queue through purely native chains, of their self
times.  Mirrors the recursion shape of `buildF`. -/
def natFoldF (g : Nat → Option ProfileNode) : Nat → List Nat → Option ℚ
  | _, [] => some 0
  | 0, _ :: _ => none
  | fuel + 1, i :: rest =>
    match g i with
    | none => none
    | some n =>
      if n.isNativeNode then
        match natFoldF g fuel (n.children.reverse ++ rest) with
        | none => none
        | some q => some (q + n.selfTime)
      else
        natFoldF g fuel rest

/-- The sum of the (flat) self times of every node walked from a queue,
native or not.  Mirrors the recursion shape of `buildF`. -/
def selfSumF (g : Nat → Option ProfileNode) : Nat → List Nat → Option ℚ
  | _, [] => some 0
  | 0, _ :: _ => none
  | fuel + 1, i :: rest =>
    match g i with
    | none => none
    | some n =>
      if n.isNativeNode then
        match selfSumF g fuel (n.children.reverse ++ rest) with
        | none => none
        | some s => some (s + n.selfTime)
      else
        match selfSumF g fuel n.children.reverse with
        | none => none
        | some sc =>
          match selfSumF g fuel rest with
          | none => none
          | some sr => some (sc + sr + n.selfTime)

/-- Sum of the `totalTime` fields of a list of tree nodes. -/
def totalSumOf (ts : List TreeNode) : ℚ :=
  (ts.map TreeNode.totalTime).sum

mutual

/-- The `sumTotal` closure of `translatedRoot`:
`node.totalTime = node.children.reduce((acc, c) => acc + sumTotal(c), node.selfTime)`,
a post-order (bottom-up) pass. -/
def sumTotalTree : TreeNode → TreeNode
  | .node cf i h s _ cs =>
    let cs2 := sumTotalList cs
    .node cf i h s (s + totalSumOf cs2) cs2

def sumTotalList : List TreeNode → List TreeNode
  | [] => []
  | t :: ts => sumTotalTree t :: sumTotalList ts

end

mutual

/-- Check the spec invariant
`totalTime(node) = selfTime(node) + Σ totalTime(child)` on every node. -/
def totalInvTree : TreeNode → Bool
  | .node _ _ _ s tt cs => (tt == s + totalSumOf cs) && totalInvList cs

def totalInvList : List TreeNode → Bool
  | [] => true
  | t :: ts => totalInvTree t && totalInvList ts

end

mutual

/-- Every node of the (sub)tree, itself included, is non-native. -/
def allNonNativeTree : TreeNode → Bool
  | .node cf _ _ _ _ cs => !cf.isNative && allNonNativeList cs

def allNonNativeList : List TreeNode → Bool
  | [] => true
  | t :: ts => allNonNativeTree t && allNonNativeList ts

end

mutual

/-- Sum of the self times over all nodes of the (sub)tree. -/
def treeSelfSum : TreeNode → ℚ
  | .node _ _ _ s _ cs => s + treeSelfSumList cs

def treeSelfSumList : List TreeNode → ℚ
  | [] => 0
  | t :: ts => treeSelfSum t + treeSelfSumList ts

end

/-- The `translatedRoot` getter: clone `nodes[0]` without children, run the
work-list build on its reversed children list (the reversal reflects
`pairs.pop()` taking the last of the pushed pairs), fold the self time of
root-level native chains into the root clone, then assign total times
bottom-up.  An empty `nodes` array makes the source throw
(`nodes[0].children` of `undefined`): `none` here. -/
def translatedRootF (p : Profile) (fuel : Nat) : Option TreeNode :=
  match p.nodes.head? with
  | none => none
  | some root =>
    match buildF (idLookup p.nodes) fuel root.children.reverse with
    | none => none
    | some (ts, q) =>
      some (sumTotalTree (.node root.callFrame root.id root.hitCount
        (root.selfTime + q) root.totalTime ts))

/-- The mutable state of the `remainingNodeInfos` loop: the emitted
`remainingNodeInfos` array (the source stores the visited node twice, as
`ancestor` and `focusNode`, always the same reference — the pair keeps the
node once, with its `totalAccountedFor` flag), the
`visitedProfileNodesForCallUID` map (a set of traversal ids per call UID;
a never-seen UID maps to the empty list, indistinguishable from the
source's absent entry because an existing set is never empty), and the
`profileNodeUIDs` counter. -/
structure AggState where
  infos : List (TreeNode × Bool)
  visited : String → List Nat
  nextUID : Nat

def initAgg : AggState :=
  ⟨[], fun _ => [], 0⟩

/-- One visit of `remainingNodeInfos` (lines 166–199).  `chain` is the
`parentProfileNodes` group represented by the traversal ids of the
ancestors (root first); on a freshly rebuilt tree `profileNode.UID` is
always unset, so the node receives the next id.  The root (and only the
root) has a null `parent`, i.e. an empty ancestor group: it is skipped by
`if (profileNode.parent)` and its id never enters the visited map. -/
def walkVisit (chain : List Nat) (t : TreeNode) (s : AggState) : AggState × Nat :=
  let uid := s.nextUID + 1
  if chain.isEmpty then
    (⟨s.infos, s.visited, uid⟩, uid)
  else
    let cu := t.callUID
    let vn := s.visited cu
    let accounted := chain.any (fun a => vn.contains a)
    (⟨s.infos ++ [(t, accounted)],
      fun k => if k = cu then uid :: vn else s.visited k,
      uid⟩, uid)

/-- The `profileNodeGroups` loop of `remainingNodeInfos`, as a FIFO queue of
`(parentProfileNodes, profileNodes)` pairs: groups are appended while the
loop runs and consumed in order, which is exactly the `for (i...)` walk over
the growing `profileNodeGroups` array.  A child group is pushed only when
`children.length` is non-zero, paired with the extended ancestor chain. -/
def walkF : Nat → List (List Nat × List TreeNode) → AggState → AggState
  | _, [], s => s
  | 0, _ :: _, s => s
  | fuel + 1, (_, []) :: rest, s => walkF fuel rest s
  | fuel + 1, (chain, t :: ts) :: rest, s =>
    let r := walkVisit chain t s
    walkF fuel
      ((chain, ts) :: rest ++
        (if t.children.isEmpty then [] else [(chain ++ [r.2], t.children)]))
      r.1

/-- `remainingNodeInfos` on an already translated root: the group queue
starts as `[[], [translatedRoot]]`.  The fuel `2 * treeSize r + 3` strictly
dominates the loop's step count. -/
def remainingNodeInfosOf (r : TreeNode) : List (TreeNode × Bool) :=
  (walkF (2 * treeSize r + 3) [([], [r])] initAgg).infos

/-- The aggregated record built by `bottomUpNodes`: a `ProfileNode.clone` of
the first occurrence (its `children`/`positionTicks`/`deoptReason` copies are
never read afterwards and are omitted), mutated in place on later
occurrences. -/
structure BUNode where
  callFrame : CallFrame
  id : Nat
  hitCount : Nat
  selfTime : ℚ
  totalTime : ℚ
deriving DecidableEq, Repr

def BUNode.callUID (b : BUNode) : String :=
  b.callFrame.callUID

def BUNode.ofTree (t : TreeNode) : BUNode :=
  ⟨t.callFrame, t.id, t.hitCount, t.selfTime, t.totalTime⟩

/-- Replace the last element satisfying `pr` (if any) by its image under
`f`, keeping its position: this is the element returned by
`array.filter(pr).pop()`, which the source then mutates through the shared
reference. -/
def updateLastMatching (pr : α → Bool) (f : α → α) : List α → List α
  | [] => []
  | a :: as =>
    if as.any pr then a :: updateLastMatching pr f as
    else if pr a then f a :: as
    else a :: as

/-- One iteration of the `bottomUpNodes` merge loop (lines 215–239).
`ancestor` and `focusNode` are the same node, so the
`if (ancestor !== focusNode)` reseeding branch never runs (JS `!==` is
reference inequality and both fields hold one reference); the trailing
`let parent = ancestor.parent` is dead code.  On a match the node's self
time is always added and its total time only when `totalAccountedFor` is
false; otherwise a clone seeds a new record. -/
def buStep (acc : List BUNode) (info : TreeNode × Bool) : List BUNode :=
  if acc.any (fun b => b.callUID == info.1.callUID) then
    updateLastMatching (fun b => b.callUID == info.1.callUID)
      (fun b =>
        { b with
          selfTime := b.selfTime + info.1.selfTime,
          totalTime := if info.2 then b.totalTime else b.totalTime + info.1.totalTime })
      acc
  else
    acc ++ [BUNode.ofTree info.1]

/-- `bottomUpNodes` on an already translated root. -/
def bottomUpNodesOf (r : TreeNode) : List BUNode :=
  (remainingNodeInfosOf r).foldl buStep []

/-- An element of the `formattedBottomUpProfile()` output. -/
structure OutRec where
  functionName : String
  selfTime : ℚ
  totalTime : ℚ
deriving DecidableEq, Repr

def OutRec.ofBU (b : BUNode) : OutRec :=
  ⟨b.callFrame.functionName, b.selfTime, b.totalTime⟩

/-- The getter pipeline on a profile: each getter invocation rebuilds the
translated tree from the profile's fields. -/
def remainingNodeInfosF (p : Profile) (fuel : Nat) : Option (List (TreeNode × Bool)) :=
  (translatedRootF p fuel).map remainingNodeInfosOf

def bottomUpNodesF (p : Profile) (fuel : Nat) : Option (List BUNode) :=
  (translatedRootF p fuel).map bottomUpNodesOf

def formattedBottomUpProfileF (p : Profile) (fuel : Nat) : Option (List OutRec) :=
  (bottomUpNodesF p fuel).map (fun bs => bs.map OutRec.ofBU)

/-- State-passing view of one `formattedBottomUpProfile()` invocation on a
`Profile` instance.  Within the three getters every assignment targets a
loop-local structure or a node cloned during that same invocation
(`translatedRoot` nodes, `bottomUpNodes` clones); the conditional write
`sourceNode.children = []` is dead because the `ProfileNode` constructor
already normalised `children` to a (truthy) array.  The instance therefore
leaves the invocation with all of its fields intact, which the pair return
makes explicit. -/
def formattedRun (p : Profile) (fuel : Nat) : Option (List OutRec) × Profile :=
  (formattedBottomUpProfileF p fuel, p)

/-- State-passing view of the `translatedRoot` getter (see `formattedRun`). -/
def translatedRootRun (p : Profile) (fuel : Nat) : Option TreeNode × Profile :=
  (translatedRootF p fuel, p)

/-- State-passing view of the `remainingNodeInfos` getter (see `formattedRun`). -/
def remainingNodeInfosRun (p : Profile) (fuel : Nat) :
    Option (List (TreeNode × Bool)) × Profile :=
  (remainingNodeInfosF p fuel, p)

/-- State-passing view of the `bottomUpNodes` getter (see `formattedRun`). -/
def bottomUpNodesRun (p : Profile) (fuel : Nat) : Option (List BUNode) × Profile :=
  (bottomUpNodesF p fuel, p)

/-- Subtree of a translated tree at a child-index path (`[]` is the root). -/
def subAt : TreeNode → List Nat → Option TreeNode
  | t, [] => some t
  | t, j :: q =>
    match t.children[j]? with
    | some c => subAt c q
    | none => none

/-- Total variant of `subAt` (meaningful on valid positions). -/
def treeAtD (r : TreeNode) (q : List Nat) : TreeNode :=
  (subAt r q).getD default

/-- Call UID of the node at a position. -/
def cuAtD (r : TreeNode) (q : List Nat) : String :=
  (treeAtD r q).callUID

mutual

/-- All child-index positions of a tree, in preorder; `[]` is the root. -/
def allPos : TreeNode → List (List Nat)
  | .node _ _ _ _ _ cs => [] :: allPosList 0 cs

/-- Positions of the subtrees `cs`, their roots indexed from `i`. -/
def allPosList : Nat → List TreeNode → List (List Nat)
  | _, [] => []
  | i, c :: cs => (allPos c).map (fun q => i :: q) ++ allPosList (i + 1) cs

end

/-- Reference meaning of `totalAccountedFor` for the occurrence at position
`q`: some non-root proper ancestor of `q` carries the same call UID. -/
def flagSpec (r : TreeNode) (q : List Nat) : Bool :=
  ((List.range q.length).map (fun j => q.take j)).any
    (fun a => !a.isEmpty && (cuAtD r a == cuAtD r q))

/-- Reference breadth-first traversal over positions, with the same group
queue shape as `walkF`: an entry `(p, i, ts)` holds the still unvisited
children `ts` of the node at `p`, the first of them having child index `i`. -/
def bfsAuxF : Nat → List (List Nat × Nat × List TreeNode) → List (List Nat)
  | _, [] => []
  | 0, _ :: _ => []
  | fuel + 1, (_, _, []) :: rest => bfsAuxF fuel rest
  | fuel + 1, (p, i, t :: ts) :: rest =>
    (p ++ [i]) ::
      bfsAuxF fuel ((p, i + 1, ts) :: rest ++
        (if t.children.isEmpty then [] else [(p ++ [i], 0, t.children)]))

/-- The non-root positions of `r` in the visit order of `remainingNodeInfos`. -/
def bfsPositions (r : TreeNode) : List (List Nat) :=
  bfsAuxF (2 * treeSize r + 1) [([], 0, r.children)]

/-- First occurrences of a list's elements, in order, skipping an initial
seen set. -/
def firstSeenFrom [BEq α] : List α → List α → List α
  | _, [] => []
  | seen, a :: l =>
    if seen.contains a then firstSeenFrom seen l
    else a :: firstSeenFrom (a :: seen) l

/-- First occurrences of a list's elements, in order. -/
def firstSeen [BEq α] (l : List α) : List α :=
  firstSeenFrom [] l

/-- The occurrences of call UID `u` among emitted node infos, in order. -/
def occsOf (u : String) (infos : List (TreeNode × Bool)) : List (TreeNode × Bool) :=
  infos.filter (fun i => i.1.callUID == u)

/-- Self time accumulated by the merge pass for call UID `u`: every
occurrence contributes. -/
def recSelfSpec (u : String) (infos : List (TreeNode × Bool)) : ℚ :=
  ((occsOf u infos).map (fun i => i.1.selfTime)).sum

/-- Total time accumulated by the merge pass for call UID `u`: the first
occurrence seeds the record (its flag is not consulted by the clone), and a
later occurrence contributes exactly when its `totalAccountedFor` flag is
false. -/
def recTotalSpec (u : String) (infos : List (TreeNode × Bool)) : ℚ :=
  match occsOf u infos with
  | [] => 0
  | first :: later =>
    first.1.totalTime + (((later.filter (fun i => !i.2)).map (fun i => i.1.totalTime)).sum)

/-- Modelled from the spec: `Σ selfTime(node)` over all non-native flat
nodes, the right-hand side of the spec's self-time conservation property. -/
def nonNativeFlatSelfSum (ns : List ProfileNode) : ℚ :=
  ((ns.filter (fun n => !n.isNativeNode)).map (fun n => n.selfTime)).sum

/-- Correspondence between an entry of the `walkF` queue and an entry of the
reference position queue, relative to the translated root `r` and the list
`V` of already visited positions in visit order (the node with traversal id
`u` sits at position `V[u-1]`): the pending subtree lists agree and are the
children of the node at `p` from index `i` on, and the ancestor chain holds
the traversal ids of exactly the positions `p.take 0, …, p`. -/
def EntryCorr (r : TreeNode) (V : List (List Nat))
    (e : List Nat × List TreeNode) (E : List Nat × Nat × List TreeNode) : Prop :=
  e.2 = E.2.2 ∧
  e.1.length = E.1.length + 1 ∧
  (∀ j, j ≤ E.1.length →
    ∃ u, e.1[j]? = some u ∧ 1 ≤ u ∧ V[u - 1]? = some (E.1.take j)) ∧
  (∀ k, e.2[k]? = subAt r (E.1 ++ [E.2.1 + k]))

/-- Characterisation of the visited map of `AggState` relative to the visit
order `V`: a traversal id is registered under a call UID exactly when it was
assigned to an already visited non-root occurrence of that call UID. -/
def VisitedCorr (r : TreeNode) (V : List (List Nat)) (s : AggState) : Prop :=
  s.nextUID = V.length ∧
  ∀ u cu, u ∈ s.visited cu ↔
    ∃ q, 1 ≤ u ∧ V[u - 1]? = some q ∧ q ≠ [] ∧ cuAtD r q = cu

/-- Step-count measure of a traversal queue: every `walkF`/`bfsAuxF` step
strictly decreases it. -/
def queueMeasure (q : List (List Nat × List TreeNode)) : Nat :=
  2 * (q.map (fun e => treeSizeList e.2)).sum + q.length

/-- Step-count measure of a reference position queue. -/
def posQueueMeasure (q : List (List Nat × Nat × List TreeNode)) : Nat :=
  2 * (q.map (fun e => treeSizeList e.2.2)).sum + q.length

/-- The positions a reference queue will still emit, entry by entry. -/
def pendingPos (q : List (List Nat × Nat × List TreeNode)) : List (List Nat) :=
  q.flatMap (fun e => (allPosList e.2.1 e.2.2).map (fun a => e.1 ++ a))

/-- Raw nodes of the spec's example scenario: root (0 hits) → A (10 hits) →
B (5 hits) → A again (5 hits), recorded over 2000 µs with 20 total hits. -/
def demoRecNodes : List ProfileNode :=
  [ProfileNode.create 1 ⟨"(root)", "0", "", 0, 0⟩ 0 [2],
   ProfileNode.create 2 ⟨"A", "1", "", 10, 0⟩ 10 [3],
   ProfileNode.create 3 ⟨"B", "1", "", 20, 0⟩ 5 [4],
   ProfileNode.create 4 ⟨"A", "1", "", 10, 0⟩ 5 []]

def demoRecP : Profile :=
  mkProfile demoRecNodes 0 2000 [] []

def demoRecRoot : TreeNode :=
  (translatedRootF demoRecP 32).getD default

/-- Raw nodes of a profile with a native frame (1 hit) below a user frame. -/
def demoNativeNodes : List ProfileNode :=
  [ProfileNode.create 1 ⟨"(root)", "0", "", 0, 0⟩ 0 [2],
   ProfileNode.create 2 ⟨"A", "1", "", 10, 0⟩ 1 [3],
   ProfileNode.create 3 ⟨"N", "1", "native v8", 5, 0⟩ 1 []]

def demoNativeP : Profile :=
  mkProfile demoNativeNodes 0 2000 [] []

def demoNativeRoot : TreeNode :=
  (translatedRootF demoNativeP 32).getD default

/-- Raw nodes of a profile with two anonymous call sites sharing script id
and line number. -/
def demoAnonNodes : List ProfileNode :=
  [ProfileNode.create 1 ⟨"(root)", "0", "", 0, 0⟩ 0 [2, 3],
   ProfileNode.create 2 ⟨"", "5", "", 7, 0⟩ 1 [],
   ProfileNode.create 3 ⟨"", "5", "", 7, 0⟩ 1 []]

def demoAnonP : Profile :=
  mkProfile demoAnonNodes 0 2000 [] []

def demoAnonRoot : TreeNode :=
  (translatedRootF demoAnonP 32).getD default

/-- Raw nodes of a numerically degenerate profile: every hit count is zero. -/
def demoZeroNodes : List ProfileNode :=
  [ProfileNode.create 1 ⟨"(root)", "0", "", 0, 0⟩ 0 [2],
   ProfileNode.create 2 ⟨"A", "1", "", 10, 0⟩ 0 []]

def demoZeroP : Profile :=
  mkProfile demoZeroNodes 0 2000 [] []

@[simp]
theorem TreeNode.callFrame_node (cf i h s tt cs) :
    (TreeNode.node cf i h s tt cs).callFrame = cf := rfl

@[simp]
theorem TreeNode.id_node (cf i h s tt cs) :
    (TreeNode.node cf i h s tt cs).id = i := rfl

@[simp]
theorem TreeNode.hitCount_node (cf i h s tt cs) :
    (TreeNode.node cf i h s tt cs).hitCount = h := rfl

@[simp]
theorem TreeNode.selfTime_node (cf i h s tt cs) :
    (TreeNode.node cf i h s tt cs).selfTime = s := rfl

@[simp]
theorem TreeNode.totalTime_node (cf i h s tt cs) :
    (TreeNode.node cf i h s tt cs).totalTime = tt := rfl

@[simp]
theorem TreeNode.children_node (cf i h s tt cs) :
    (TreeNode.node cf i h s tt cs).children = cs := rfl

@[simp]
theorem TreeNode.callUID_node (cf i h s tt cs) :
    (TreeNode.node cf i h s tt cs).callUID = cf.callUID := rfl

theorem mkProfile_samplingInterval (ns : List ProfileNode) (s e : ℚ)
    (sm : List Nat) (td : List ℚ) :
    (mkProfile ns s e sm td).samplingInterval = (e - s) / (totalHitCount ns : ℚ) := rfl

theorem mkProfile_nodes (ns : List ProfileNode) (s e : ℚ) (sm : List Nat) (td : List ℚ) :
    (mkProfile ns s e sm td).nodes =
      nameAnonymousFunctions
        (assignInitialSelfTimes ((e - s) / (totalHitCount ns : ℚ)) ns) := rfl

/-- Renaming an anonymous function changes only the `functionName` field. -/
theorem mem_nameAnonymousFunctions (ns : List ProfileNode) (n : ProfileNode)
    (hn : n ∈ nameAnonymousFunctions ns) :
    ∃ m ∈ ns, n.id = m.id ∧ n.hitCount = m.hitCount ∧ n.children = m.children ∧
      n.selfTime = m.selfTime ∧ n.totalTime = m.totalTime ∧
      n.callFrame.scriptId = m.callFrame.scriptId ∧
      n.callFrame.url = m.callFrame.url ∧
      n.callFrame.lineNumber = m.callFrame.lineNumber ∧
      n.callFrame.columnNumber = m.callFrame.columnNumber ∧
      n.callFrame.functionName =
        (if m.callFrame.functionName = "" then anonymousName
         else m.callFrame.functionName) := by
  simp only [nameAnonymousFunctions, List.mem_map] at hn
  obtain ⟨m, hm, hEq⟩ := hn
  refine ⟨m, hm, ?_⟩
  by_cases hname : m.callFrame.functionName = "" <;> simp [hname] at hEq <;> subst hEq <;>
    simp [hname]

theorem mem_assignInitialSelfTimes (si : ℚ) (ns : List ProfileNode) (n : ProfileNode)
    (hn : n ∈ assignInitialSelfTimes si ns) :
    ∃ m ∈ ns, n = { m with selfTime := (m.hitCount * si) / 1000 } := by
  simp only [assignInitialSelfTimes, List.mem_map] at hn
  obtain ⟨m, hm, hEq⟩ := hn
  exact ⟨m, hm, hEq.symm⟩

/-- Every node of a constructed profile satisfies the self-time formula. -/
theorem selfTime_of_mem_mkProfile (ns : List ProfileNode) (s e : ℚ)
    (sm : List Nat) (td : List ℚ) (n : ProfileNode)
    (hn : n ∈ (mkProfile ns s e sm td).nodes) :
    n.selfTime = (n.hitCount : ℚ) * (mkProfile ns s e sm td).samplingInterval / 1000 := by
  rw [mkProfile_nodes] at hn
  obtain ⟨m, hm, _, hhit, _, hself, _⟩ := mem_nameAnonymousFunctions _ _ hn
  obtain ⟨m0, _, rfl⟩ := mem_assignInitialSelfTimes _ _ _ hm
  simp [hself, hhit, mkProfile_samplingInterval]

mutual

theorem totalInvTree_sumTotalTree : ∀ t : TreeNode, totalInvTree (sumTotalTree t) = true
  | .node cf i h s tt cs => by
    simp only [sumTotalTree, totalInvTree, Bool.and_eq_true, beq_iff_eq]
    exact ⟨trivial, totalInvList_sumTotalList cs⟩

theorem totalInvList_sumTotalList : ∀ ts : List TreeNode, totalInvList (sumTotalList ts) = true
  | [] => rfl
  | t :: ts => by
    simp only [sumTotalList, totalInvList, Bool.and_eq_true]
    exact ⟨totalInvTree_sumTotalTree t, totalInvList_sumTotalList ts⟩

end

/-- A successful `translatedRoot` is a `sumTotalTree` image. -/
theorem translatedRootF_eq_sumTotal (p : Profile) (fuel : Nat) (r : TreeNode)
    (hr : translatedRootF p fuel = some r) :
    ∃ root ts q, p.nodes.head? = some root ∧
      buildF (idLookup p.nodes) fuel root.children.reverse = some (ts, q) ∧
      r = sumTotalTree (.node root.callFrame root.id root.hitCount
            (root.selfTime + q) root.totalTime ts) := by
  unfold translatedRootF at hr
  split at hr
  next => simp at hr
  next root hhead =>
    split at hr
    next => simp at hr
    next ts q hbuild =>
      exact ⟨root, ts, q, hhead, hbuild, by simpa using hr.symm⟩

/-- A successful build determines the native fold sum: `natFoldF` computes
exactly the `ℚ` component that `buildF` hands to the shared parent. -/
theorem buildF_natFold (g : Nat → Option ProfileNode) :
    ∀ fuel q ts qv, buildF g fuel q = some (ts, qv) → natFoldF g fuel q = some qv := by
  intro fuel
  induction fuel with
  | zero =>
    intro q ts qv h
    cases q with
    | nil =>
      simp only [buildF, Option.some.injEq, Prod.mk.injEq] at h
      simp [natFoldF, h.2.symm]
    | cons i rest => simp [buildF] at h
  | succ f ih =>
    intro q ts qv h
    cases q with
    | nil =>
      simp only [buildF, Option.some.injEq, Prod.mk.injEq] at h
      simp [natFoldF, h.2.symm]
    | cons i rest =>
      rw [buildF] at h
      split at h
      next => simp at h
      next n hg =>
        split at h
        next hnat =>
          split at h
          next => simp at h
          next ts0 q0 hb =>
            simp only [Option.some.injEq, Prod.mk.injEq] at h
            simp only [natFoldF, hg, hnat, if_true, ih _ ts0 q0 hb]
            simp [h.2.symm]
        next hnat =>
          split at h
          next => simp at h
          next cs qc hb =>
            split at h
            next => simp at h
            next ts0 qr hb2 =>
              simp only [Option.some.injEq, Prod.mk.injEq] at h
              simp only [natFoldF, hg, hnat, if_false, ih _ ts0 qr hb2]
              simp [h.2.symm]

/-- Self-time conservation of the build: the flat self times walked from a
queue are distributed between the built trees and the parent fold sum. -/
theorem buildF_selfSum (g : Nat → Option ProfileNode) :
    ∀ fuel q ts qv, buildF g fuel q = some (ts, qv) →
      selfSumF g fuel q = some (treeSelfSumList ts + qv) := by
  intro fuel
  induction fuel with
  | zero =>
    intro q ts qv h
    cases q with
    | nil =>
      simp only [buildF, Option.some.injEq, Prod.mk.injEq] at h
      simp [selfSumF, ← h.1, ← h.2, treeSelfSumList]
    | cons i rest => simp [buildF] at h
  | succ f ih =>
    intro q ts qv h
    cases q with
    | nil =>
      simp only [buildF, Option.some.injEq, Prod.mk.injEq] at h
      simp [selfSumF, ← h.1, ← h.2, treeSelfSumList]
    | cons i rest =>
      rw [buildF] at h
      split at h
      next => simp at h
      next n hg =>
        split at h
        next hnat =>
          split at h
          next => simp at h
          next ts0 q0 hb =>
            simp only [Option.some.injEq, Prod.mk.injEq] at h
            simp only [selfSumF, hg, hnat, if_true, ih _ ts0 q0 hb]
            rw [← h.1, ← h.2]
            ring_nf
        next hnat =>
          split at h
          next => simp at h
          next cs qc hb =>
            split at h
            next => simp at h
            next ts0 qr hb2 =>
              simp only [Option.some.injEq, Prod.mk.injEq] at h
              simp only [selfSumF, hg, hnat, if_false, ih _ cs qc hb, ih _ ts0 qr hb2]
              rw [← h.1, ← h.2]
              simp only [treeSelfSumList, treeSelfSum, Option.some.injEq,
                TreeNode.selfTime_node, TreeNode.children_node, Bool.false_eq_true,
                if_false]
              ring

/-- Every tree node created by the build comes from a non-native flat node:
native frames never become tree nodes. -/
theorem buildF_allNonNative (g : Nat → Option ProfileNode) :
    ∀ fuel q ts qv, buildF g fuel q = some (ts, qv) → allNonNativeList ts = true := by
  intro fuel
  induction fuel with
  | zero =>
    intro q ts qv h
    cases q with
    | nil =>
      simp only [buildF, Option.some.injEq, Prod.mk.injEq] at h
      simp [← h.1, allNonNativeList]
    | cons i rest => simp [buildF] at h
  | succ f ih =>
    intro q ts qv h
    cases q with
    | nil =>
      simp only [buildF, Option.some.injEq, Prod.mk.injEq] at h
      simp [← h.1, allNonNativeList]
    | cons i rest =>
      rw [buildF] at h
      split at h
      next => simp at h
      next n hg =>
        split at h
        next hnat =>
          split at h
          next => simp at h
          next ts0 q0 hb =>
            simp only [Option.some.injEq, Prod.mk.injEq] at h
            rw [← h.1]
            exact ih _ ts0 q0 hb
        next hnat =>
          split at h
          next => simp at h
          next cs qc hb =>
            split at h
            next => simp at h
            next ts0 qr hb2 =>
              simp only [Option.some.injEq, Prod.mk.injEq] at h
              rw [← h.1]
              simp only [allNonNativeList, allNonNativeTree, Bool.and_eq_true,
                Bool.not_eq_eq_eq_not, Bool.not_true]
              refine ⟨⟨?_, ?_⟩, ?_⟩
              · simpa [ProfileNode.isNativeNode] using hnat
              · exact ih _ cs qc hb
              · exact ih _ ts0 qr hb2

/-- The native branch of the build loop: a native source node creates no
tree node, folds its self time into the current parent's accumulator, and
hands its children to the walk under the same parent. -/
theorem buildF_native_step (g : Nat → Option ProfileNode) (f i : Nat)
    (rest : List Nat) (n : ProfileNode) (hg : g i = some n)
    (hnat : n.isNativeNode = true) :
    buildF g (f + 1) (i :: rest) =
      (buildF g f (n.children.reverse ++ rest)).map (fun x => (x.1, x.2 + n.selfTime)) := by
  rw [buildF]
  simp only [hg, hnat, if_true]
  cases buildF g f (n.children.reverse ++ rest) with
  | none => rfl
  | some tq => rfl

/-- The non-native branch of the build loop: the clone's self time is the
flat node's self time plus the fold sum of its (purely native chains of)
descendants. -/
theorem buildF_nonNative_head (g : Nat → Option ProfileNode) (f i : Nat)
    (rest : List Nat) (n : ProfileNode) (out : List TreeNode × ℚ)
    (hg : g i = some n) (hnat : n.isNativeNode = false)
    (h : buildF g (f + 1) (i :: rest) = some out) :
    ∃ cs qc ts qr,
      buildF g f n.children.reverse = some (cs, qc) ∧
      buildF g f rest = some (ts, qr) ∧
      natFoldF g f n.children.reverse = some qc ∧
      out = (TreeNode.node n.callFrame n.id n.hitCount (n.selfTime + qc) n.totalTime cs :: ts, qr) := by
  rw [buildF] at h
  split at h
  next hg2 => rw [hg] at hg2; cases hg2
  next n2 hg2 =>
    rw [hg] at hg2
    cases hg2
    split at h
    next hnat2 => rw [hnat] at hnat2; cases hnat2
    next =>
      split at h
      next => simp at h
      next cs qc hb =>
        split at h
        next => simp at h
        next ts0 qr hb2 =>
          simp only [Option.some.injEq] at h
          exact ⟨cs, qc, ts0, qr, hb, hb2, buildF_natFold g f _ cs qc hb, h.symm⟩

mutual

/-- `sumTotal` only writes total times: self times are preserved. -/
theorem treeSelfSum_sumTotalTree : ∀ t : TreeNode,
    treeSelfSum (sumTotalTree t) = treeSelfSum t
  | .node cf i h s tt cs => by
    simp only [sumTotalTree, treeSelfSum, TreeNode.selfTime_node, TreeNode.children_node]
    rw [treeSelfSumList_sumTotalList cs]

theorem treeSelfSumList_sumTotalList : ∀ ts : List TreeNode,
    treeSelfSumList (sumTotalList ts) = treeSelfSumList ts
  | [] => rfl
  | t :: ts => by
    simp only [sumTotalList, treeSelfSumList]
    rw [treeSelfSum_sumTotalTree t, treeSelfSumList_sumTotalList ts]

end

mutual

/-- `sumTotal` does not change call frames: non-nativeness is preserved. -/
theorem allNonNative_sumTotalTree : ∀ t : TreeNode,
    allNonNativeTree (sumTotalTree t) = allNonNativeTree t
  | .node cf i h s tt cs => by
    simp only [sumTotalTree, allNonNativeTree, TreeNode.callFrame_node, TreeNode.children_node]
    rw [allNonNative_sumTotalList cs]

theorem allNonNative_sumTotalList : ∀ ts : List TreeNode,
    allNonNativeList (sumTotalList ts) = allNonNativeList ts
  | [] => rfl
  | t :: ts => by
    simp only [sumTotalList, allNonNativeList]
    rw [allNonNative_sumTotalTree t, allNonNative_sumTotalList ts]

end

theorem subAt_singleton (t : TreeNode) (k : Nat) : subAt t [k] = t.children[k]? := by
  rw [subAt]
  cases t.children[k]? with
  | none => rfl
  | some c => simp [subAt]

theorem subAt_append (a : List Nat) : ∀ (t : TreeNode) (b : List Nat),
    subAt t (a ++ b) = (subAt t a).bind (fun t2 => subAt t2 b) := by
  induction a with
  | nil => intro t b; simp [subAt]
  | cons j a ih =>
    intro t b
    simp only [List.cons_append]
    rw [subAt, subAt]
    cases t.children[j]? with
    | none => rfl
    | some c => exact ih c b

theorem subAt_child (r : TreeNode) (p : List Nat) (t : TreeNode) (k : Nat)
    (h : subAt r p = some t) : subAt r (p ++ [k]) = t.children[k]? := by
  rw [subAt_append, h]
  simp [subAt_singleton]

theorem treeAtD_of_subAt (r : TreeNode) (p : List Nat) (t : TreeNode)
    (h : subAt r p = some t) : treeAtD r p = t := by
  simp [treeAtD, h]

theorem flagSpec_iff (r : TreeNode) (q : List Nat) :
    flagSpec r q = true ↔
      ∃ j, j < q.length ∧ q.take j ≠ [] ∧ cuAtD r (q.take j) = cuAtD r q := by
  simp only [flagSpec, List.any_eq_true, List.mem_map, List.mem_range,
    Bool.and_eq_true, beq_iff_eq, Bool.not_eq_true', List.isEmpty_eq_false]
  constructor
  · rintro ⟨x, ⟨j, hj, rfl⟩, hne, hcu⟩
    exact ⟨j, hj, hne, hcu⟩
  · rintro ⟨j, hj, hne, hcu⟩
    exact ⟨q.take j, ⟨j, hj, rfl⟩, hne, hcu⟩

/-- Visiting a non-root node at a fresh position preserves the visited-map
characterisation. -/
theorem visitedCorr_update (r : TreeNode) (V : List (List Nat)) (s : AggState)
    (hv : VisitedCorr r V s) (pos : List Nat) (t : TreeNode)
    (hpos : subAt r pos = some t) (hne : pos ≠ []) (infos2 : List (TreeNode × Bool)) :
    VisitedCorr r (V ++ [pos])
      ⟨infos2,
        fun k => if k = t.callUID then (s.nextUID + 1) :: s.visited t.callUID
          else s.visited k,
        s.nextUID + 1⟩ := by
  obtain ⟨hn, hchar⟩ := hv
  refine ⟨by simp [hn], ?_⟩
  intro u cu
  have hvis : (AggState.visited
      ⟨infos2,
        fun k => if k = t.callUID then (s.nextUID + 1) :: s.visited t.callUID
          else s.visited k,
        s.nextUID + 1⟩) cu =
      if cu = t.callUID then (s.nextUID + 1) :: s.visited t.callUID
      else s.visited cu := rfl
  rw [hvis]
  have hcuAt : cuAtD r pos = t.callUID := by
    simp [cuAtD, treeAtD, hpos]
  by_cases hcu : cu = t.callUID
  · subst hcu
    rw [if_pos rfl, List.mem_cons]
    constructor
    · rintro (rfl | hu)
      · refine ⟨pos, by omega, ?_, hne, hcuAt⟩
        rw [hn]
        have h2 : V.length + 1 - 1 = V.length := by omega
        rw [h2, List.getElem?_concat_length]
      · obtain ⟨q2, h1, hq2, h3, h4⟩ := (hchar u _).mp hu
        refine ⟨q2, h1, ?_, h3, h4⟩
        rw [List.getElem?_append_left (List.getElem?_eq_some_iff.mp hq2).1]
        exact hq2
    · rintro ⟨q2, h1, hq2, h3, h4⟩
      by_cases hu : u - 1 < V.length
      · right
        rw [List.getElem?_append_left hu] at hq2
        exact (hchar u _).mpr ⟨q2, h1, hq2, h3, h4⟩
      · left
        have hlen : u - 1 < (V ++ [pos]).length := (List.getElem?_eq_some_iff.mp hq2).1
        simp only [List.length_append, List.length_singleton] at hlen
        omega
  · rw [if_neg hcu]
    constructor
    · intro hu
      obtain ⟨q2, h1, hq2, h3, h4⟩ := (hchar u cu).mp hu
      refine ⟨q2, h1, ?_, h3, h4⟩
      rw [List.getElem?_append_left (List.getElem?_eq_some_iff.mp hq2).1]
      exact hq2
    · rintro ⟨q2, h1, hq2, h3, h4⟩
      by_cases hu : u - 1 < V.length
      · rw [List.getElem?_append_left hu] at hq2
        exact (hchar u cu).mpr ⟨q2, h1, hq2, h3, h4⟩
      · exfalso
        have hlen : u - 1 < (V ++ [pos]).length := (List.getElem?_eq_some_iff.mp hq2).1
        simp only [List.length_append, List.length_singleton] at hlen
        have h5 : u - 1 = V.length := by omega
        rw [h5, List.getElem?_concat_length] at hq2
        have h6 : pos = q2 := by simpa using hq2
        subst h6
        exact hcu (h4 ▸ hcuAt.symm ▸ rfl)

/-- The `totalAccountedFor` computation of one visit: testing the ancestor
chain against the visited set of the node's call UID decides exactly whether
some non-root proper ancestor carries the same call UID. -/
theorem accounted_eq_flagSpec (r : TreeNode) (V : List (List Nat)) (s : AggState)
    (hv : VisitedCorr r V s) (chain p : List Nat) (i : Nat) (t : TreeNode)
    (hlen : chain.length = p.length + 1)
    (hchain : ∀ j, j ≤ p.length →
      ∃ u, chain[j]? = some u ∧ 1 ≤ u ∧ V[u - 1]? = some (p.take j))
    (hpos : subAt r (p ++ [i]) = some t) :
    chain.any (fun a => (s.visited t.callUID).contains a) = flagSpec r (p ++ [i]) := by
  obtain ⟨hn, hchar⟩ := hv
  have hcuAt : cuAtD r (p ++ [i]) = t.callUID := by
    simp [cuAtD, treeAtD, hpos]
  rw [Bool.eq_iff_iff]
  rw [flagSpec_iff]
  simp only [List.any_eq_true]
  constructor
  · rintro ⟨a, ha, hmem⟩
    rw [List.elem_iff] at hmem
    obtain ⟨j, hj⟩ := List.mem_iff_getElem?.mp ha
    have hjlen : j < chain.length := (List.getElem?_eq_some_iff.mp hj).1
    have hjle : j ≤ p.length := by omega
    obtain ⟨u, hu1, hu2, hu3⟩ := hchain j hjle
    rw [hj] at hu1
    have hau : a = u := by simpa using hu1
    subst hau
    obtain ⟨q2, _, hq2, hq2ne, hq2cu⟩ := (hchar a _).mp hmem
    rw [hu3] at hq2
    have hq2eq : p.take j = q2 := by simpa using hq2
    subst hq2eq
    have htake : (p ++ [i]).take j = p.take j := List.take_append_of_le_length hjle
    refine ⟨j, ?_, ?_, ?_⟩
    · simp only [List.length_append, List.length_singleton]
      omega
    · rw [htake]; exact hq2ne
    · rw [htake, hq2cu, hcuAt]
  · rintro ⟨j, hjlt, hne, hcu⟩
    have hjle : j ≤ p.length := by
      simp only [List.length_append, List.length_singleton] at hjlt
      omega
    have htake : (p ++ [i]).take j = p.take j := List.take_append_of_le_length hjle
    obtain ⟨u, hu1, hu2, hu3⟩ := hchain j hjle
    refine ⟨u, List.mem_iff_getElem?.mpr ⟨j, hu1⟩, ?_⟩
    rw [List.elem_iff]
    apply (hchar u _).mpr
    refine ⟨p.take j, hu2, hu3, ?_, ?_⟩
    · rw [← htake]; exact hne
    · rw [← htake, hcu, hcuAt]

/-- Entry correspondence is stable under extending the visit list. -/
theorem entryCorr_mono (r : TreeNode) (V W : List (List Nat))
    (e : List Nat × List TreeNode) (E : List Nat × Nat × List TreeNode)
    (h : EntryCorr r V e E) : EntryCorr r (V ++ W) e E := by
  obtain ⟨h1, h2, h3, h4⟩ := h
  refine ⟨h1, h2, ?_, h4⟩
  intro j hj
  obtain ⟨u, hu1, hu2, hu3⟩ := h3 j hj
  refine ⟨u, hu1, hu2, ?_⟩
  rw [List.getElem?_append_left (List.getElem?_eq_some_iff.mp hu3).1]
  exact hu3

/-- Lockstep correspondence between the `remainingNodeInfos` loop and the
reference breadth-first position walk: from corresponding queues, the infos
emitted are exactly the visited positions' nodes paired with the reference
`totalAccountedFor` meaning (some non-root proper ancestor shares the call
UID). -/
theorem walkF_eq_bfs (r : TreeNode) :
    ∀ (fuel : Nat) (q : List (List Nat × List TreeNode))
      (Q : List (List Nat × Nat × List TreeNode)) (V : List (List Nat)) (s : AggState),
      VisitedCorr r V s → List.Forall₂ (EntryCorr r V) q Q →
      (walkF fuel q s).infos =
        s.infos ++ (bfsAuxF fuel Q).map (fun pos => (treeAtD r pos, flagSpec r pos)) := by
  intro fuel
  induction fuel with
  | zero =>
    intro q Q V s hv hf
    cases hf with
    | nil => simp [walkF, bfsAuxF]
    | cons he hf2 => simp [walkF, bfsAuxF]
  | succ f ih =>
    intro q Q V s hv hf
    cases hf with
    | nil => simp [walkF, bfsAuxF]
    | @cons e E q2 Q2 he hf2 =>
      obtain ⟨chain, ts⟩ := e
      obtain ⟨p, i, tsS⟩ := E
      obtain ⟨hts, hlen, hchain, htrees⟩ := he
      simp only at hts hlen hchain htrees
      subst hts
      cases ts with
      | nil =>
        rw [walkF, bfsAuxF]
        exact ih q2 Q2 V s hv hf2
      | cons t ts2 =>
        have hchne : chain.isEmpty = false := by
          cases chain
          · simp at hlen
          · simp
        have hpos : subAt r (p ++ [i]) = some t := by
          have h0 := htrees 0
          simp only [List.getElem?_cons_zero, Nat.add_zero] at h0
          exact h0.symm
        have haccflag :
            chain.any (fun a => (s.visited t.callUID).contains a) = flagSpec r (p ++ [i]) :=
          accounted_eq_flagSpec r V s hv chain p i t hlen hchain hpos
        have hv2 := visitedCorr_update r V s hv (p ++ [i]) t hpos (by simp)
          (s.infos ++ [(t, chain.any (fun a => (s.visited t.callUID).contains a))])
        have hf3 : List.Forall₂ (EntryCorr r (V ++ [p ++ [i]]))
            ((chain, ts2) :: q2 ++
              (if t.children.isEmpty then []
               else [(chain ++ [s.nextUID + 1], t.children)]))
            ((p, i + 1, ts2) :: Q2 ++
              (if t.children.isEmpty then [] else [(p ++ [i], 0, t.children)])) := by
          refine List.Forall₂.cons ?_ (List.rel_append ?_ ?_)
          · refine ⟨rfl, hlen, ?_, ?_⟩
            · intro j hj
              obtain ⟨u, hu1, hu2, hu3⟩ := hchain j hj
              refine ⟨u, hu1, hu2, ?_⟩
              rw [List.getElem?_append_left (List.getElem?_eq_some_iff.mp hu3).1]
              exact hu3
            · intro k
              have hk := htrees (k + 1)
              simp only [List.getElem?_cons_succ] at hk
              have harith : i + (k + 1) = i + 1 + k := by omega
              rw [harith] at hk
              exact hk
          · exact hf2.imp (fun a b h => entryCorr_mono r V [p ++ [i]] a b h)
          · by_cases hemp : t.children.isEmpty
            · simp only [hemp, if_true]
              exact List.Forall₂.nil
            · simp only [hemp, if_false]
              refine List.Forall₂.cons ⟨rfl, ?_, ?_, ?_⟩ List.Forall₂.nil
              · simp [hlen]
              · intro j hj
                simp only [List.length_append, List.length_singleton] at hj
                by_cases hjp : j ≤ p.length
                · obtain ⟨u, hu1, hu2, hu3⟩ := hchain j hjp
                  refine ⟨u, ?_, hu2, ?_⟩
                  · rw [List.getElem?_append_left (by omega : j < chain.length)]
                    exact hu1
                  · rw [List.getElem?_append_left (List.getElem?_eq_some_iff.mp hu3).1,
                      List.take_append_of_le_length hjp]
                    exact hu3
                · have hj2 : j = chain.length := by omega
                  refine ⟨s.nextUID + 1, ?_, by omega, ?_⟩
                  · rw [hj2, List.getElem?_concat_length]
                  · have hn1 : s.nextUID + 1 - 1 = V.length := by rw [hv.1]; omega
                    rw [hn1, List.getElem?_concat_length]
                    have hj3 : j = (p ++ [i]).length := by
                      simp only [List.length_append, List.length_singleton]
                      omega
                    rw [hj3, List.take_length]
              · intro k
                rw [Nat.zero_add]
                exact (subAt_child r (p ++ [i]) t k hpos).symm
        rw [walkF, bfsAuxF]
        simp only [walkVisit, hchne, Bool.false_eq_true, if_false]
        rw [ih _ _ _ _ hv2 hf3]
        simp only [List.map_cons, treeAtD_of_subAt r _ t hpos, haccflag]
        simp [List.append_assoc]

/-- The infos emitted by `remainingNodeInfos` are exactly the non-root
positions of the translated tree, in breadth-first visit order, each paired
with its node and the reference `totalAccountedFor` meaning. -/
theorem remainingInfos_eq_bfs (r : TreeNode) :
    remainingNodeInfosOf r =
      (bfsPositions r).map (fun pos => (treeAtD r pos, flagSpec r pos)) := by
  unfold remainingNodeInfosOf bfsPositions
  have hfuel : 2 * treeSize r + 3 = 2 * treeSize r + 1 + 1 + 1 := by omega
  rw [hfuel]
  rw [walkF]
  simp only [walkVisit, initAgg, List.isEmpty_nil, if_true, List.cons_append,
    List.nil_append, Nat.zero_add]
  rw [walkF]
  by_cases hemp : r.children.isEmpty
  · simp only [hemp, if_true]
    have hc : r.children = [] := List.isEmpty_iff.mp hemp
    rw [hc, walkF, bfsAuxF, bfsAuxF]
    simp
  · simp only [hemp, Bool.false_eq_true, if_false]
    have hv : VisitedCorr r [[]] ⟨[], fun _ => [], 1⟩ := by
      refine ⟨rfl, ?_⟩
      intro u cu
      simp only [List.not_mem_nil, false_iff]
      rintro ⟨q2, h1, hq2, h3, _⟩
      have hb : u - 1 < 1 := by
        simpa using (List.getElem?_eq_some_iff.mp hq2).1
      have hu0 : u - 1 = 0 := by omega
      rw [hu0] at hq2
      simp only [List.getElem?_cons_zero, Option.some.injEq] at hq2
      exact h3 hq2.symm
    have hf : List.Forall₂ (EntryCorr r [[]])
        [([1], r.children)] [([], 0, r.children)] := by
      refine List.Forall₂.cons ⟨rfl, rfl, ?_, ?_⟩ List.Forall₂.nil
      · intro j hj
        have hj0 : j = 0 := by simpa using hj
        subst hj0
        exact ⟨1, rfl, le_refl 1, rfl⟩
      · intro k
        simp only [List.nil_append, Nat.zero_add]
        exact (subAt_singleton r k).symm
    rw [walkF_eq_bfs r (2 * treeSize r + 1) [([1], r.children)] [([], 0, r.children)]
      [[]] ⟨[], fun _ => [], 1⟩ hv hf]
    simp

theorem treeSize_eq (t : TreeNode) : treeSize t = 1 + treeSizeList t.children := by
  cases t
  rfl

theorem allPos_eq (t : TreeNode) : allPos t = [] :: allPosList 0 t.children := by
  cases t
  rfl

theorem pendingPos_cons (p : List Nat) (i : Nat) (ts : List TreeNode)
    (rest : List (List Nat × Nat × List TreeNode)) :
    pendingPos ((p, i, ts) :: rest) =
      (allPosList i ts).map (fun a => p ++ a) ++ pendingPos rest := by
  simp [pendingPos]

theorem pendingPos_append (Q1 Q2 : List (List Nat × Nat × List TreeNode)) :
    pendingPos (Q1 ++ Q2) = pendingPos Q1 ++ pendingPos Q2 := by
  simp [pendingPos]

theorem allPosList_cons (i : Nat) (t : TreeNode) (ts : List TreeNode) :
    allPosList i (t :: ts) = (allPos t).map (fun q => i :: q) ++ allPosList (i + 1) ts := by
  rw [allPosList]

/-- Rearrangement of the pending positions over a visit step. -/
theorem pending_visit_perm (p : List Nat) (i : Nat) (t : TreeNode)
    (ts : List TreeNode) (rest : List (List Nat × Nat × List TreeNode)) :
    ((p ++ [i]) ::
      pendingPos (((p, i + 1, ts) :: rest) ++
        (if t.children.isEmpty then [] else [(p ++ [i], 0, t.children)]))).Perm
      (pendingPos ((p, i, t :: ts) :: rest)) := by
  by_cases hemp : t.children.isEmpty
  · have hc : t.children = [] := List.isEmpty_iff.mp hemp
    simp only [hemp, if_true, List.append_nil]
    rw [pendingPos_cons p (i + 1) ts rest, pendingPos_cons p i (t :: ts) rest,
      allPosList_cons, allPos_eq, hc]
    simp only [allPosList, List.map_cons, List.map_nil, List.map_append, List.nil_append,
      List.cons_append]
    exact List.Perm.refl _
  · simp only [hemp, Bool.false_eq_true, if_false]
    rw [pendingPos_append, pendingPos_cons p (i + 1) ts rest,
      pendingPos_cons p i (t :: ts) rest, allPosList_cons, allPos_eq]
    have hsingle : pendingPos [(p ++ [i], 0, t.children)] =
        (allPosList 0 t.children).map (fun a => p ++ [i] ++ a) := by
      simp [pendingPos]
    rw [hsingle]
    have hmap : (allPosList 0 t.children).map (fun a => p ++ [i] ++ a) =
        (allPosList 0 t.children).map ((fun a => p ++ a) ∘ (fun q => i :: q)) := by
      apply List.map_congr_left
      intro a _
      simp
    rw [hmap]
    simp only [List.map_cons, List.map_append, List.map_map, List.cons_append]
    refine List.Perm.cons _ ?_
    refine List.Perm.trans List.perm_append_comm ?_
    rw [List.append_assoc]

/-- With enough fuel, the reference walk emits exactly the pending positions
of its queue, up to order. -/
theorem bfsAuxF_perm : ∀ (fuel : Nat) (Q : List (List Nat × Nat × List TreeNode)),
    posQueueMeasure Q ≤ fuel → (bfsAuxF fuel Q).Perm (pendingPos Q) := by
  intro fuel
  induction fuel with
  | zero =>
    intro Q hm
    cases Q with
    | nil => simp [bfsAuxF, pendingPos]
    | cons E Q2 =>
      exfalso
      simp only [posQueueMeasure, List.length_cons] at hm
      omega
  | succ f ih =>
    intro Q hm
    match Q with
    | [] => simp [bfsAuxF, pendingPos]
    | (p, i, []) :: rest =>
      rw [bfsAuxF]
      have hm2 : posQueueMeasure rest ≤ f := by
        simp only [posQueueMeasure, List.map_cons, List.sum_cons, List.length_cons,
          treeSizeList] at hm ⊢
        omega
      refine (ih rest hm2).trans ?_
      rw [pendingPos_cons]
      simp [allPosList]
    | (p, i, t :: ts) :: rest =>
      rw [bfsAuxF]
      have hsz : treeSize t = 1 + treeSizeList t.children := treeSize_eq t
      have hm2 : posQueueMeasure (((p, i + 1, ts) :: rest) ++
          (if t.children.isEmpty then [] else [(p ++ [i], 0, t.children)])) ≤ f := by
        by_cases hemp : t.children.isEmpty
        · have hc : t.children = [] := List.isEmpty_iff.mp hemp
          rw [hc] at hsz
          simp only [treeSizeList] at hsz
          simp only [hemp, if_true, List.append_nil, posQueueMeasure, List.map_cons,
            List.sum_cons, List.length_cons, treeSizeList] at hm ⊢
          omega
        · simp only [hemp, Bool.false_eq_true, if_false, posQueueMeasure, List.map_append,
            List.map_cons, List.sum_append, List.sum_cons, List.length_append,
            List.length_cons, treeSizeList, List.map_nil, List.sum_nil,
            List.length_nil] at hm ⊢
          omega
      exact (List.Perm.cons _ (ih _ hm2)).trans (pending_visit_perm p i t ts rest)

/-- The traversal visits exactly the non-root positions of the tree. -/
theorem bfsPositions_perm (r : TreeNode) :
    (bfsPositions r).Perm (allPosList 0 r.children) := by
  unfold bfsPositions
  have hm : posQueueMeasure [([], 0, r.children)] ≤ 2 * treeSize r + 1 := by
    simp only [posQueueMeasure, List.map_cons, List.map_nil, List.sum_cons, List.sum_nil,
      List.length_cons, List.length_nil, treeSize_eq r]
    omega
  refine (bfsAuxF_perm _ _ hm).trans ?_
  simp [pendingPos]

/-- The reference walk emits positions in nondecreasing length (level)
order, and every emitted position is strictly longer than the queue head's
parent position. -/
theorem bfsAuxF_sorted : ∀ (fuel : Nat) (Q : List (List Nat × Nat × List TreeNode)),
    List.Pairwise (fun a b => a.1.length ≤ b.1.length) Q →
    (∀ E ∈ Q, ∀ F ∈ Q, E.1.length ≤ F.1.length + 1) →
    List.Pairwise (fun a b : List Nat => a.length ≤ b.length) (bfsAuxF fuel Q) ∧
    ∀ x ∈ bfsAuxF fuel Q, ∀ E, Q.head? = some E → E.1.length + 1 ≤ x.length := by
  intro fuel
  induction fuel with
  | zero =>
    intro Q hs hw
    cases Q <;> simp [bfsAuxF]
  | succ f ih =>
    intro Q hs hw
    match Q with
    | [] => simp [bfsAuxF]
    | (p, i, []) :: rest =>
      rw [bfsAuxF]
      have hs2 := List.Pairwise.sublist (List.sublist_cons_self _ _) hs
      have hw2 : ∀ E ∈ rest, ∀ F ∈ rest, E.1.length ≤ F.1.length + 1 := by
        intro E hE F hF
        exact hw E (List.mem_cons_of_mem _ hE) F (List.mem_cons_of_mem _ hF)
      obtain ⟨hps, hbound⟩ := ih rest hs2 hw2
      refine ⟨hps, ?_⟩
      intro x hx E hE
      simp only [List.head?_cons, Option.some.injEq] at hE
      cases rest with
      | nil => simp [bfsAuxF] at hx
      | cons E2 rest2 =>
        have h2 := hbound x hx E2 (by simp)
        have h3 : p.length ≤ E2.1.length :=
          (List.pairwise_cons.mp hs).1 E2 (by simp)
        subst hE
        simp only []
        omega
    | (p, i, t :: ts) :: rest =>
      rw [bfsAuxF]
      -- facts about the level window
      have hrest_lo : ∀ E ∈ rest, p.length ≤ E.1.length := by
        intro E hE
        exact (List.pairwise_cons.mp hs).1 E hE
      have hrest_hi : ∀ E ∈ rest, E.1.length ≤ p.length + 1 := by
        intro E hE
        exact hw E (List.mem_cons_of_mem _ hE) (p, i, t :: ts) (List.mem_cons_self _ _)
      have hmem_new : ∀ E ∈ ((p, i + 1, ts) :: rest) ++
          (if t.children.isEmpty then [] else [(p ++ [i], 0, t.children)]),
          (p.length ≤ E.1.length ∧ E.1.length ≤ p.length + 1) := by
        intro E hE
        rcases List.mem_append.mp hE with hE1 | hE2
        · rcases List.mem_cons.mp hE1 with rfl | hE1b
          · simp
          · exact ⟨hrest_lo E hE1b, hrest_hi E hE1b⟩
        · by_cases hemp : t.children.isEmpty
          · simp [hemp] at hE2
          · simp only [hemp, Bool.false_eq_true, if_false, List.mem_singleton] at hE2
            subst hE2
            simp
      have hs2 : List.Pairwise (fun a b => a.1.length ≤ b.1.length)
          (((p, i + 1, ts) :: rest) ++
            (if t.children.isEmpty then [] else [(p ++ [i], 0, t.children)])) := by
        rw [List.pairwise_append]
        refine ⟨?_, ?_, ?_⟩
        · rw [List.pairwise_cons]
          exact ⟨fun E hE => hrest_lo E hE,
            List.Pairwise.sublist (List.sublist_cons_self _ _) hs⟩
        · by_cases hemp : t.children.isEmpty <;> simp [hemp]
        · intro a ha b hb
          by_cases hemp : t.children.isEmpty
          · simp [hemp] at hb
          · simp only [hemp, Bool.false_eq_true, if_false, List.mem_singleton] at hb
            subst hb
            rcases List.mem_cons.mp ha with rfl | hab
            · simp
            · have := hrest_hi a hab
              simp only [List.length_append, List.length_singleton]
              omega
      have hw2 : ∀ E ∈ ((p, i + 1, ts) :: rest) ++
          (if t.children.isEmpty then [] else [(p ++ [i], 0, t.children)]),
          ∀ F ∈ ((p, i + 1, ts) :: rest) ++
            (if t.children.isEmpty then [] else [(p ++ [i], 0, t.children)]),
          E.1.length ≤ F.1.length + 1 := by
        intro E hE F hF
        obtain ⟨_, hEhi⟩ := hmem_new E hE
        obtain ⟨hFlo, _⟩ := hmem_new F hF
        omega
      obtain ⟨hps, hbound⟩ := ih _ hs2 hw2
      constructor
      · rw [List.pairwise_cons]
        refine ⟨?_, hps⟩
        intro x hx
        have hx1 : p.length + 1 ≤ x.length :=
          hbound x hx (p, i + 1, ts) (by simp [List.cons_append, List.head?_cons])
        simp only [List.length_append, List.length_singleton]
        omega
      · intro x hx E hE
        simp only [List.head?_cons, Option.some.injEq] at hE
        subst hE
        show p.length + 1 ≤ x.length
        rcases List.mem_cons.mp hx with rfl | hx2
        · simp
        · have hx1 : p.length + 1 ≤ x.length :=
            hbound x hx2 (p, i + 1, ts) (by simp [List.cons_append, List.head?_cons])
          omega

theorem bfsPositions_sorted (r : TreeNode) :
    List.Pairwise (fun a b : List Nat => a.length ≤ b.length) (bfsPositions r) := by
  unfold bfsPositions
  refine (bfsAuxF_sorted _ [([], 0, r.children)] (by simp) ?_).1
  intro E hE F hF
  simp only [List.mem_singleton] at hE hF
  subst hE
  subst hF
  simp

/-- Membership characterisation of `allPosList`. -/
theorem mem_allPosList : ∀ (cs : List TreeNode) (i : Nat) (x : List Nat),
    x ∈ allPosList i cs ↔
      ∃ k c q2, cs[k]? = some c ∧ x = (i + k) :: q2 ∧ q2 ∈ allPos c := by
  intro cs
  induction cs with
  | nil =>
    intro i x
    simp [allPosList]
  | cons c cs ih =>
    intro i x
    rw [allPosList_cons]
    simp only [List.mem_append, List.mem_map, ih (i + 1)]
    constructor
    · rintro (⟨q2, hq2, rfl⟩ | ⟨k, c2, q2, hk, rfl, hq2⟩)
      · exact ⟨0, c, q2, by simp, by simp, hq2⟩
      · refine ⟨k + 1, c2, q2, by simpa using hk, by simp; omega, hq2⟩
    · rintro ⟨k, c2, q2, hk, rfl, hq2⟩
      cases k with
      | zero =>
        left
        simp only [List.getElem?_cons_zero, Option.some.injEq] at hk
        subst hk
        exact ⟨q2, hq2, by simp⟩
      | succ k2 =>
        right
        simp only [List.getElem?_cons_succ] at hk
        exact ⟨k2, c2, q2, hk, by simp; omega, hq2⟩

/-- A position list is a valid path exactly when it denotes a subtree. -/
theorem mem_allPos : ∀ (x : List Nat) (t : TreeNode),
    x ∈ allPos t ↔ (subAt t x).isSome := by
  intro x
  induction x with
  | nil =>
    intro t
    rw [allPos_eq]
    simp [subAt]
  | cons j x ih =>
    intro t
    rw [allPos_eq]
    simp only [List.mem_cons, reduceCtorEq, false_or, mem_allPosList]
    rw [subAt]
    constructor
    · rintro ⟨k, c, q2, hk, heq, hq2⟩
      simp only [Nat.zero_add] at heq
      obtain ⟨rfl, rfl⟩ : j = k ∧ x = q2 := by
        constructor <;> injection heq <;> assumption
      rw [hk]
      exact (ih c).mp hq2
    · intro hsome
      cases hk : t.children[j]? with
      | none => rw [hk] at hsome; simp at hsome
      | some c =>
        rw [hk] at hsome
        exact ⟨j, c, x, hk, by simp, (ih c).mpr hsome⟩

theorem treeAtD_child (t0 : TreeNode) (j : Nat) (c : TreeNode)
    (hc : t0.children[j]? = some c) (q : List Nat) :
    treeAtD t0 (j :: q) = treeAtD c q := by
  unfold treeAtD
  rw [subAt, hc]

mutual

/-- Summing self times over all positions of a tree gives its self-time sum. -/
theorem sum_selfAt_allPos : ∀ t : TreeNode,
    (((allPos t).map (fun q => (treeAtD t q).selfTime)).sum = treeSelfSum t)
  | .node cf i h s tt cs => by
    rw [allPos_eq]
    simp only [List.map_cons, List.sum_cons, TreeNode.children_node]
    have hhead : treeAtD (TreeNode.node cf i h s tt cs) [] = TreeNode.node cf i h s tt cs := by
      simp [treeAtD, subAt]
    rw [hhead]
    have := sum_selfAt_allPosList cs (TreeNode.node cf i h s tt cs) 0
      (by intro k c hk; simpa using hk)
    rw [this]
    simp [treeSelfSum]

theorem sum_selfAt_allPosList : ∀ (cs : List TreeNode) (t0 : TreeNode) (i : Nat),
    (∀ k c, cs[k]? = some c → t0.children[i + k]? = some c) →
    ((allPosList i cs).map (fun q => (treeAtD t0 q).selfTime)).sum = treeSelfSumList cs
  | [], t0, i, _ => by simp [allPosList, treeSelfSumList]
  | c :: cs, t0, i, hsub => by
    rw [allPosList_cons]
    simp only [List.map_append, List.map_map, List.sum_append]
    have hc : t0.children[i]? = some c := by
      have := hsub 0 c (by simp)
      simpa using this
    have h1 : ((allPos c).map ((fun q => (treeAtD t0 q).selfTime) ∘ (fun q => i :: q))).sum
        = treeSelfSum c := by
      have hcongr : (allPos c).map ((fun q => (treeAtD t0 q).selfTime) ∘ (fun q => i :: q))
          = (allPos c).map (fun q => (treeAtD c q).selfTime) := by
        apply List.map_congr_left
        intro a _
        simp [Function.comp, treeAtD_child t0 i c hc a]
      rw [hcongr, sum_selfAt_allPos c]
    have h2 : ((allPosList (i + 1) cs).map (fun q => (treeAtD t0 q).selfTime)).sum
        = treeSelfSumList cs := by
      apply sum_selfAt_allPosList cs t0 (i + 1)
      intro k c2 hk
      have := hsub (k + 1) c2 (by simpa using hk)
      have harith : i + (k + 1) = i + 1 + k := by omega
      rw [harith] at this
      exact this
    rw [h1, h2]
    simp [treeSelfSumList]

end

theorem allNonNativeList_mem (cs : List TreeNode) (c : TreeNode)
    (hall : allNonNativeList cs = true) (hc : c ∈ cs) : allNonNativeTree c = true := by
  induction cs with
  | nil => simp at hc
  | cons d ds ih =>
    simp only [allNonNativeList, Bool.and_eq_true] at hall
    rcases List.mem_cons.mp hc with rfl | hc2
    · exact hall.1
    · exact ih hall.2 hc2

theorem allNonNativeTree_subAt : ∀ (x : List Nat) (t t2 : TreeNode),
    allNonNativeTree t = true → subAt t x = some t2 → allNonNativeTree t2 = true := by
  intro x
  induction x with
  | nil =>
    intro t t2 hall hsub
    simp only [subAt, Option.some.injEq] at hsub
    exact hsub ▸ hall
  | cons j x ih =>
    intro t t2 hall hsub
    rw [subAt] at hsub
    cases hk : t.children[j]? with
    | none => rw [hk] at hsub; simp at hsub
    | some c =>
      rw [hk] at hsub
      have hcmem : c ∈ t.children := List.getElem?_mem hk
      have hct : allNonNativeTree c = true := by
        cases t with
        | node cf i h s tt cs =>
          simp only [allNonNativeTree, Bool.and_eq_true] at hall
          exact allNonNativeList_mem cs c hall.2 (by simpa using hcmem)
      exact ih c t2 hct hsub

theorem allNonNativeTree_isNative (t : TreeNode)
    (h : allNonNativeTree t = true) : t.callFrame.isNative = false := by
  cases t with
  | node cf i hh s tt cs =>
    simp only [allNonNativeTree, Bool.and_eq_true, Bool.not_eq_eq_eq_not, Bool.not_true] at h
    simpa using h.1

theorem mem_firstSeenFrom [BEq α] [LawfulBEq α] :
    ∀ (l seen : List α) (x : α), x ∈ firstSeenFrom seen l ↔ x ∈ l ∧ x ∉ seen := by
  intro l
  induction l with
  | nil => intro seen x; simp [firstSeenFrom]
  | cons a l ih =>
    intro seen x
    rw [firstSeenFrom]
    by_cases hs : seen.contains a
    · rw [if_pos hs]
      rw [ih seen x]
      have ha : a ∈ seen := List.elem_iff.mp hs
      simp only [List.mem_cons]
      constructor
      · rintro ⟨hx, hxs⟩
        exact ⟨Or.inr hx, hxs⟩
      · rintro ⟨hx | hx, hxs⟩
        · subst hx; exact absurd ha hxs
        · exact ⟨hx, hxs⟩
    · rw [if_neg hs]
      have ha : a ∉ seen := fun hmem => hs (List.elem_iff.mpr hmem)
      simp only [List.mem_cons, ih (a :: seen) x, List.mem_cons]
      constructor
      · rintro (rfl | ⟨hx, hxs⟩)
        · exact ⟨Or.inl rfl, ha⟩
        · exact ⟨Or.inr hx, fun hmem => hxs (Or.inr hmem)⟩
      · rintro ⟨rfl | hx, hxs⟩
        · exact Or.inl rfl
        · by_cases hxa : x = a
          · exact Or.inl hxa
          · refine Or.inr ⟨hx, ?_⟩
            rintro (h | h)
            · exact hxa h
            · exact hxs h

theorem nodup_firstSeenFrom [BEq α] [LawfulBEq α] :
    ∀ (l seen : List α), (firstSeenFrom seen l).Nodup := by
  intro l
  induction l with
  | nil => intro seen; simp [firstSeenFrom]
  | cons a l ih =>
    intro seen
    rw [firstSeenFrom]
    by_cases hs : seen.contains a
    · rw [if_pos hs]; exact ih seen
    · rw [if_neg hs]
      refine List.Nodup.cons ?_ (ih (a :: seen))
      intro hmem
      have := (mem_firstSeenFrom l (a :: seen) a).mp hmem
      exact this.2 (List.mem_cons_self a seen)

theorem firstSeenFrom_append_one [BEq α] [LawfulBEq α] :
    ∀ (l seen : List α) (a : α),
      firstSeenFrom seen (l ++ [a]) =
        firstSeenFrom seen l ++ (if a ∈ seen ∨ a ∈ l then [] else [a]) := by
  intro l
  induction l with
  | nil =>
    intro seen a
    simp only [List.nil_append]
    conv_lhs => rw [firstSeenFrom]
    by_cases hs : seen.contains a
    · rw [if_pos hs, if_pos (Or.inl (List.elem_iff.mp hs))]
      simp [firstSeenFrom]
    · have hmem : ¬(a ∈ seen ∨ a ∈ ([] : List α)) := by
        rintro (h | h)
        · exact hs (List.elem_iff.mpr h)
        · simp at h
      rw [if_neg hs, if_neg hmem]
      simp [firstSeenFrom]
  | cons x l ih =>
    intro seen a
    simp only [List.cons_append]
    rw [firstSeenFrom, firstSeenFrom]
    by_cases hs : seen.contains x
    · rw [if_pos hs, if_pos hs, ih seen a]
      congr 1
      by_cases hxa : a = x
      · subst hxa
        rw [if_pos (Or.inl (List.elem_iff.mp hs)), if_pos (Or.inr (List.mem_cons_self a l))]
      · by_cases hmem : a ∈ seen ∨ a ∈ l
        · rw [if_pos hmem, if_pos]
          rcases hmem with h | h
          · exact Or.inl h
          · exact Or.inr (List.mem_cons_of_mem x h)
        · rw [if_neg hmem, if_neg]
          rintro (h | h)
          · exact hmem (Or.inl h)
          · rcases List.mem_cons.mp h with h2 | h2
            · exact hxa h2
            · exact hmem (Or.inr h2)
    · rw [if_neg hs, if_neg hs, ih (x :: seen) a]
      have hiff : (a ∈ x :: seen ∨ a ∈ l) ↔ (a ∈ seen ∨ a ∈ x :: l) := by
        simp only [List.mem_cons]
        tauto
      rw [if_congr hiff rfl rfl, List.cons_append]

/-- With no duplicate call UIDs, `filter(...).pop()` plus in-place mutation
is pointwise: the unique matching record is replaced, all others kept. -/
theorem updateLastMatching_eq_map (u : String) (f : BUNode → BUNode) :
    ∀ l : List BUNode, (l.map BUNode.callUID).Nodup →
      updateLastMatching (fun b => b.callUID == u) f l =
        l.map (fun b => if b.callUID == u then f b else b) := by
  intro l
  induction l with
  | nil => intro _; simp [updateLastMatching]
  | cons a as ih =>
    intro hnd
    rw [updateLastMatching]
    by_cases hany : as.any (fun b => b.callUID == u)
    · rw [if_pos hany]
      have hex : ∃ b ∈ as, b.callUID = u := by
        simpa [List.any_eq_true] using hany
      have hna : ¬(a.callUID == u) = true := by
        intro h
        obtain ⟨b, hb, hbu⟩ := hex
        have hmem : a.callUID ∈ as.map BUNode.callUID := by
          rw [beq_iff_eq] at h
          rw [h, ← hbu]
          exact List.mem_map_of_mem _ hb
        exact (List.nodup_cons.mp hnd).1 hmem
      rw [List.map_cons, if_neg hna, ih (List.nodup_cons.mp hnd).2]
    · rw [if_neg hany]
      have hnone : ∀ b ∈ as, ¬(b.callUID == u) = true := by
        intro b hb h
        exact hany (List.any_eq_true.mpr ⟨b, hb, h⟩)
      have hmapas : as.map (fun b => if b.callUID == u then f b else b) = as := by
        have h2 : as.map (fun b => if b.callUID == u then f b else b) =
            as.map (fun b => b) :=
          List.map_congr_left (fun b hb => by rw [if_neg (hnone b hb)])
        rw [h2]
        exact List.map_id' as
      by_cases hpa : (a.callUID == u) = true
      · rw [if_pos hpa, List.map_cons, if_pos hpa, hmapas]
      · rw [if_neg hpa, List.map_cons, if_neg hpa, hmapas]

theorem keys_map_keyUpdate (u : String) (f : BUNode → BUNode)
    (hf : ∀ b, (f b).callUID = b.callUID) (l : List BUNode) :
    (l.map (fun b => if b.callUID == u then f b else b)).map BUNode.callUID =
      l.map BUNode.callUID := by
  rw [List.map_map]
  apply List.map_congr_left
  intro b _
  by_cases h : (b.callUID == u) = true <;> simp [Function.comp, h, hf b]

theorem sum_g_map_keyUpdate (g : BUNode → ℚ) (u : String) (f : BUNode → BUNode) (d : ℚ)
    (hf : ∀ b, b.callUID = u → g (f b) = g b + d) :
    ∀ l : List BUNode, (l.map BUNode.callUID).Nodup → u ∈ l.map BUNode.callUID →
      ((l.map (fun b => if b.callUID == u then f b else b)).map g).sum =
        (l.map g).sum + d := by
  intro l
  induction l with
  | nil => intro _ h; simp at h
  | cons a as ih =>
    intro hnd hmem
    by_cases hpa : (a.callUID == u) = true
    · have hau : a.callUID = u := beq_iff_eq.mp hpa
      have hnotin : ∀ b ∈ as, ¬(b.callUID == u) = true := by
        intro b hb h
        have : u ∈ as.map BUNode.callUID := by
          rw [← beq_iff_eq.mp h]
          exact List.mem_map_of_mem _ hb
        rw [← hau] at this
        exact (List.nodup_cons.mp hnd).1 this
      have hmapas : as.map (fun b => if b.callUID == u then f b else b) = as := by
        have h2 : as.map (fun b => if b.callUID == u then f b else b) =
            as.map (fun b => b) :=
          List.map_congr_left (fun b hb => by rw [if_neg (hnotin b hb)])
        rw [h2]
        exact List.map_id' as
      rw [List.map_cons, if_pos hpa, hmapas]
      simp only [List.map_cons, List.sum_cons, hf a hau]
      ring
    · rw [List.map_cons, if_neg hpa]
      have hmem2 : u ∈ as.map BUNode.callUID := by
        rw [List.map_cons] at hmem
        rcases List.mem_cons.mp hmem with h | h
        · exact absurd (beq_iff_eq.mpr h.symm) hpa
        · exact h
      simp only [List.map_cons, List.sum_cons, ih (List.nodup_cons.mp hnd).2 hmem2]
      ring

theorem occsOf_append_one (u : String) (l : List (TreeNode × Bool)) (i : TreeNode × Bool) :
    occsOf u (l ++ [i]) = occsOf u l ++ (if i.1.callUID == u then [i] else []) := by
  rw [occsOf, occsOf, List.filter_append]
  congr 1
  by_cases h : (i.1.callUID == u) = true <;> simp [h]

theorem keys_mem_iff_occs (u : String) (l : List (TreeNode × Bool)) :
    u ∈ l.map (fun i => i.1.callUID) ↔ occsOf u l ≠ [] := by
  rw [occsOf, List.mem_map, Ne, List.filter_eq_nil_iff]
  push_neg
  constructor
  · rintro ⟨i, hi, rfl⟩
    exact ⟨i, hi, by simp⟩
  · rintro ⟨i, hi, h⟩
    exact ⟨i, hi, by simpa using h⟩

theorem recSelfSpec_append_one (u : String) (l : List (TreeNode × Bool)) (i : TreeNode × Bool) :
    recSelfSpec u (l ++ [i]) =
      recSelfSpec u l + (if i.1.callUID == u then i.1.selfTime else 0) := by
  rw [recSelfSpec, recSelfSpec, occsOf_append_one]
  by_cases h : (i.1.callUID == u) = true <;> simp [h]

theorem recTotalSpec_append_one_nomatch (u : String) (l : List (TreeNode × Bool))
    (i : TreeNode × Bool) (h : (i.1.callUID == u) = false) :
    recTotalSpec u (l ++ [i]) = recTotalSpec u l := by
  rw [recTotalSpec, recTotalSpec, occsOf_append_one, h]
  simp

theorem recTotalSpec_append_one_first (u : String) (l : List (TreeNode × Bool))
    (i : TreeNode × Bool) (h : (i.1.callUID == u) = true) (hocc : occsOf u l = []) :
    recTotalSpec u (l ++ [i]) = i.1.totalTime := by
  rw [recTotalSpec, occsOf_append_one, hocc, h]
  simp

theorem recTotalSpec_append_one_later (u : String) (l : List (TreeNode × Bool))
    (i : TreeNode × Bool) (h : (i.1.callUID == u) = true)
    (first : TreeNode × Bool) (later : List (TreeNode × Bool))
    (hocc : occsOf u l = first :: later) :
    recTotalSpec u (l ++ [i]) =
      recTotalSpec u l + (if i.2 then 0 else i.1.totalTime) := by
  rw [recTotalSpec, recTotalSpec, occsOf_append_one, h, hocc]
  simp only [if_true, List.cons_append, List.filter_append, List.map_append, List.sum_append]
  cases hflag : i.2 <;> simp [hflag] <;> ring

/-- Invariant of the `bottomUpNodes` merge loop: the accumulator holds one
record per call UID already seen, keyed in first-seen order, with self time
the sum over all its occurrences and total time the first occurrence's total
plus the totals of the later occurrences not marked `totalAccountedFor`,
carrying the first occurrence's call frame. -/
theorem bottomUp_foldl_spec :
    ∀ (infos processed : List (TreeNode × Bool)) (acc : List BUNode),
      (acc.map BUNode.callUID).Nodup →
      acc.map BUNode.callUID = firstSeen (processed.map (fun i => i.1.callUID)) →
      (∀ b ∈ acc,
        b.selfTime = recSelfSpec b.callUID processed ∧
        b.totalTime = recTotalSpec b.callUID processed ∧
        ∃ info ∈ processed, info.1.callUID = b.callUID ∧ b.callFrame = info.1.callFrame) →
      ((infos.foldl buStep acc).map BUNode.callUID).Nodup ∧
      (infos.foldl buStep acc).map BUNode.callUID =
        firstSeen ((processed ++ infos).map (fun i => i.1.callUID)) ∧
      (∀ b ∈ infos.foldl buStep acc,
        b.selfTime = recSelfSpec b.callUID (processed ++ infos) ∧
        b.totalTime = recTotalSpec b.callUID (processed ++ infos) ∧
        ∃ info ∈ processed ++ infos,
          info.1.callUID = b.callUID ∧ b.callFrame = info.1.callFrame) := by
  intro infos
  induction infos with
  | nil =>
    intro processed acc hnd hkeys hspec
    simp only [List.foldl_nil, List.append_nil]
    exact ⟨hnd, hkeys, hspec⟩
  | cons i0 infos ih =>
    intro processed acc hnd hkeys hspec
    rw [List.foldl_cons]
    have hassoc : processed ++ i0 :: infos = (processed ++ [i0]) ++ infos := by simp
    rw [hassoc]
    by_cases hin : acc.any (fun b => b.callUID == i0.1.callUID)
    · -- a record for this call UID exists: in-place merge
      have hu0mem : i0.1.callUID ∈ acc.map BUNode.callUID := by
        obtain ⟨b, hb, hbu⟩ := List.any_eq_true.mp hin
        rw [← beq_iff_eq.mp hbu]
        exact List.mem_map_of_mem _ hb
      have hu0proc : i0.1.callUID ∈ processed.map (fun i => i.1.callUID) := by
        have := hkeys ▸ hu0mem
        exact ((mem_firstSeenFrom _ [] _).mp this).1
      have hstep : buStep acc (i0.1, i0.2) =
          acc.map (fun b => if b.callUID == i0.1.callUID then
            { b with
              selfTime := b.selfTime + i0.1.selfTime,
              totalTime := if i0.2 then b.totalTime else b.totalTime + i0.1.totalTime }
            else b) := by
        rw [buStep]
        simp only
        rw [if_pos hin, updateLastMatching_eq_map _ _ acc hnd]
      rw [show i0 = (i0.1, i0.2) from rfl, hstep]
      apply ih
      · rw [keys_map_keyUpdate i0.1.callUID (fun b =>
            { b with
              selfTime := b.selfTime + i0.1.selfTime,
              totalTime := if i0.2 then b.totalTime else b.totalTime + i0.1.totalTime })
            (fun b => rfl)]
        exact hnd
      · rw [keys_map_keyUpdate i0.1.callUID (fun b =>
            { b with
              selfTime := b.selfTime + i0.1.selfTime,
              totalTime := if i0.2 then b.totalTime else b.totalTime + i0.1.totalTime })
            (fun b => rfl), hkeys, List.map_append, List.map_cons, List.map_nil]
        simp only [firstSeen]
        rw [firstSeenFrom_append_one, if_pos (Or.inr hu0proc), List.append_nil]
      · intro b2 hb2
        obtain ⟨b, hb, hbeq⟩ := List.mem_map.mp hb2
        by_cases hmatch : (b.callUID == i0.1.callUID) = true
        · rw [if_pos hmatch] at hbeq
          subst hbeq
          have hbu : b.callUID = i0.1.callUID := beq_iff_eq.mp hmatch
          obtain ⟨hself, htotal, hframe⟩ := hspec b hb
          have hcu2 : ({ b with
              selfTime := b.selfTime + i0.1.selfTime,
              totalTime := if i0.2 then b.totalTime
                else b.totalTime + i0.1.totalTime } : BUNode).callUID = b.callUID := rfl
          rw [hcu2]
          refine ⟨?_, ?_, ?_⟩
          · show b.selfTime + i0.1.selfTime = _
            rw [recSelfSpec_append_one, hself]
            rw [if_pos (show ((i0.1, i0.2).1.callUID == b.callUID) = true from by
              simp [hbu])]
          · show (if i0.2 then b.totalTime else b.totalTime + i0.1.totalTime) = _
            have hoccne : occsOf b.callUID processed ≠ [] :=
              (keys_mem_iff_occs _ _).mp (hbu ▸ hu0proc)
            obtain ⟨first, later, hocc⟩ : ∃ f l2, occsOf b.callUID processed = f :: l2 := by
              cases h : occsOf b.callUID processed with
              | nil => exact absurd h hoccne
              | cons f l2 => exact ⟨f, l2, rfl⟩
            rw [recTotalSpec_append_one_later _ _ _ (show ((i0.1, i0.2).1.callUID == b.callUID) = true from by
              simp [hbu]) first later hocc, ← htotal]
            cases i0.2 <;> simp
          · obtain ⟨info, hi, h1, h2⟩ := hframe
            exact ⟨info, List.mem_append_left _ hi, h1, h2⟩
        · rw [if_neg hmatch] at hbeq
          subst hbeq
          obtain ⟨hself, htotal, hframe⟩ := hspec b hb
          have hbne : (i0.1.callUID == b.callUID) = false := by
            rw [beq_eq_false_iff_ne]
            intro h
            exact hmatch (beq_iff_eq.mpr h.symm)
          refine ⟨?_, ?_, ?_⟩
          · rw [recSelfSpec_append_one, hself, if_neg (show
              ¬((i0.1, i0.2).1.callUID == b.callUID) = true from by simp [hbne])]
            ring
          · rw [recTotalSpec_append_one_nomatch _ _ _ hbne, htotal]
          · obtain ⟨info, hi, h1, h2⟩ := hframe
            exact ⟨info, List.mem_append_left _ hi, h1, h2⟩
    · -- first occurrence of this call UID: append a clone
      have hu0nmem : i0.1.callUID ∉ acc.map BUNode.callUID := by
        intro hmem
        obtain ⟨b, hb, hbu⟩ := List.mem_map.mp hmem
        exact hin (List.any_eq_true.mpr ⟨b, hb, beq_iff_eq.mpr hbu⟩)
      have hu0proc : i0.1.callUID ∉ processed.map (fun i => i.1.callUID) := by
        intro hmem
        apply hu0nmem
        rw [hkeys]
        exact (mem_firstSeenFrom _ [] _).mpr ⟨hmem, by simp⟩
      have hocc0 : occsOf i0.1.callUID processed = [] := by
        by_contra h
        exact hu0proc ((keys_mem_iff_occs _ _).mpr h)
      have hstep : buStep acc (i0.1, i0.2) = acc ++ [BUNode.ofTree i0.1] := by
        rw [buStep]
        simp only
        rw [if_neg hin]
      rw [show i0 = (i0.1, i0.2) from rfl, hstep]
      apply ih
      · rw [List.map_append]
        rw [List.nodup_append]
        refine ⟨hnd, by simp, ?_⟩
        intro x hx hx2
        simp only [List.map_cons, List.map_nil, List.mem_singleton] at hx2
        subst hx2
        exact hu0nmem hx
      · rw [List.map_append, List.map_append, hkeys]
        simp only [firstSeen, List.map_cons, List.map_nil]
        rw [firstSeenFrom_append_one]
        rw [if_neg (fun hor => Or.elim hor (fun h => by simp at h) (fun h => hu0proc h))]
        simp [BUNode.ofTree, BUNode.callUID, TreeNode.callUID]
      · intro b2 hb2
        rcases List.mem_append.mp hb2 with hb | hb
        · obtain ⟨hself, htotal, hframe⟩ := hspec b2 hb
          have hbne : (i0.1.callUID == b2.callUID) = false := by
            rw [beq_eq_false_iff_ne]
            intro h
            apply hu0nmem
            rw [h]
            exact List.mem_map_of_mem _ hb
          refine ⟨?_, ?_, ?_⟩
          · rw [recSelfSpec_append_one, hself, if_neg (show
              ¬((i0.1, i0.2).1.callUID == b2.callUID) = true from by simp [hbne])]
            ring
          · rw [recTotalSpec_append_one_nomatch _ _ _ hbne, htotal]
          · obtain ⟨info, hi, h1, h2⟩ := hframe
            exact ⟨info, List.mem_append_left _ hi, h1, h2⟩
        · simp only [List.mem_singleton] at hb
          subst hb
          have hofcu : (BUNode.ofTree i0.1).callUID = i0.1.callUID := rfl
          refine ⟨?_, ?_, ?_⟩
          · rw [hofcu, recSelfSpec_append_one, if_pos (by simp)]
            have hz : recSelfSpec i0.1.callUID processed = 0 := by
              rw [recSelfSpec, hocc0]
              simp
            rw [hz]
            show i0.1.selfTime = 0 + i0.1.selfTime
            ring
          · rw [hofcu, recTotalSpec_append_one_first _ _ _ (by simp) hocc0]
            rfl
          · exact ⟨(i0.1, i0.2), List.mem_append_right _ (by simp), hofcu.symm ▸ rfl, rfl⟩

/-- One merge step keeps record call UIDs duplicate-free and adds exactly
the occurrence's self time to the records' self-time total. -/
theorem buStep_keys_sum (acc : List BUNode) (i : TreeNode × Bool)
    (hnd : (acc.map BUNode.callUID).Nodup) :
    ((buStep acc i).map BUNode.callUID).Nodup ∧
    ((buStep acc i).map BUNode.selfTime).sum =
      (acc.map BUNode.selfTime).sum + i.1.selfTime := by
  by_cases hin : acc.any (fun b => b.callUID == i.1.callUID)
  · have hu0mem : i.1.callUID ∈ acc.map BUNode.callUID := by
      obtain ⟨b, hb, hbu⟩ := List.any_eq_true.mp hin
      rw [← beq_iff_eq.mp hbu]
      exact List.mem_map_of_mem _ hb
    have hstep : buStep acc i =
        acc.map (fun b => if b.callUID == i.1.callUID then
          { b with
            selfTime := b.selfTime + i.1.selfTime,
            totalTime := if i.2 then b.totalTime else b.totalTime + i.1.totalTime }
          else b) := by
      rw [buStep]
      rw [if_pos hin, updateLastMatching_eq_map _ _ acc hnd]
    rw [hstep]
    constructor
    · rw [keys_map_keyUpdate i.1.callUID (fun b =>
        { b with
          selfTime := b.selfTime + i.1.selfTime,
          totalTime := if i.2 then b.totalTime else b.totalTime + i.1.totalTime })
        (fun b => rfl)]
      exact hnd
    · exact sum_g_map_keyUpdate BUNode.selfTime i.1.callUID _ i.1.selfTime
        (fun b _ => rfl) acc hnd hu0mem
  · have hu0nmem : i.1.callUID ∉ acc.map BUNode.callUID := by
      intro hmem
      obtain ⟨b, hb, hbu⟩ := List.mem_map.mp hmem
      exact hin (List.any_eq_true.mpr ⟨b, hb, beq_iff_eq.mpr hbu⟩)
    have hstep : buStep acc i = acc ++ [BUNode.ofTree i.1] := by
      rw [buStep]
      rw [if_neg hin]
    rw [hstep]
    constructor
    · rw [List.map_append, List.nodup_append]
      refine ⟨hnd, by simp, ?_⟩
      intro x hx hx2
      simp only [List.map_cons, List.map_nil, List.mem_singleton] at hx2
      subst hx2
      exact hu0nmem hx
    · simp [BUNode.ofTree, BUNode.selfTime]

/-- The merge pass conserves self time: the records' self times sum to the
emitted occurrences' self times. -/
theorem sum_selfTime_foldl : ∀ (infos : List (TreeNode × Bool)) (acc : List BUNode),
    (acc.map BUNode.callUID).Nodup →
    ((infos.foldl buStep acc).map BUNode.selfTime).sum =
      (acc.map BUNode.selfTime).sum + (infos.map (fun i => i.1.selfTime)).sum := by
  intro infos
  induction infos with
  | nil => intro acc _; simp
  | cons i infos ih =>
    intro acc hnd
    rw [List.foldl_cons]
    obtain ⟨hnd2, hsum⟩ := buStep_keys_sum acc i hnd
    rw [ih (buStep acc i) hnd2, hsum]
    simp only [List.map_cons, List.sum_cons]
    ring

theorem sumTotalList_map : ∀ ts : List TreeNode, sumTotalList ts = ts.map sumTotalTree
  | [] => rfl
  | t :: ts => by rw [sumTotalList, sumTotalList_map ts, List.map_cons]

theorem subAt_sumTotal : ∀ (q : List Nat) (t : TreeNode),
    subAt (sumTotalTree t) q = (subAt t q).map sumTotalTree := by
  intro q
  induction q with
  | nil => intro t; simp [subAt]
  | cons j q ih =>
    intro t
    rw [subAt, subAt]
    have hch : (sumTotalTree t).children = t.children.map sumTotalTree := by
      cases t
      simp [sumTotalTree, sumTotalList_map]
    rw [hch, List.getElem?_map]
    cases t.children[j]? with
    | none => rfl
    | some c => exact ih c

theorem nonNative_at_nonroot (r : TreeNode) (hall : allNonNativeList r.children = true)
    (q : List Nat) (hq : q ≠ []) (t2 : TreeNode) (hsub : subAt r q = some t2) :
    allNonNativeTree t2 = true := by
  cases q with
  | nil => exact absurd rfl hq
  | cons j q2 =>
    rw [subAt] at hsub
    cases hk : r.children[j]? with
    | none => rw [hk] at hsub; simp at hsub
    | some c =>
      rw [hk] at hsub
      have hc : allNonNativeTree c = true :=
        allNonNativeList_mem _ c hall (List.getElem?_mem hk)
      exact allNonNativeTree_subAt q2 c t2 hc hsub

theorem subAt_take_isSome (r : TreeNode) (x : List Nat) (j : Nat)
    (h : (subAt r x).isSome) : (subAt r (x.take j)).isSome := by
  have hx : x = x.take j ++ x.drop j := (List.take_append_drop j x).symm
  rw [hx, subAt_append] at h
  cases hsub : subAt r (x.take j) with
  | none => rw [hsub] at h; simp at h
  | some t2 => simp

theorem mem_allPosList_nonroot (r : TreeNode) (q : List Nat) :
    q ∈ allPosList 0 r.children ↔ (q ∈ allPos r ∧ q ≠ []) := by
  rw [allPos_eq]
  constructor
  · intro h
    refine ⟨List.mem_cons_of_mem _ h, ?_⟩
    obtain ⟨k, c, q2, _, rfl, _⟩ := (mem_allPosList _ _ _).mp h
    simp
  · rintro ⟨h, hq⟩
    rcases List.mem_cons.mp h with rfl | h2
    · exact absurd rfl hq
    · exact h2

/-- The frame of every node of every tree built by the work list is the
frame of some flat node reachable through the id map. -/
theorem buildF_frames (g : Nat → Option ProfileNode) :
    ∀ fuel q ts qv, buildF g fuel q = some (ts, qv) →
      ∀ t ∈ ts, ∀ q2 t2, subAt t q2 = some t2 →
        ∃ i n, g i = some n ∧ t2.callFrame = n.callFrame := by
  intro fuel
  induction fuel with
  | zero =>
    intro q ts qv h
    cases q with
    | nil =>
      simp only [buildF, Option.some.injEq, Prod.mk.injEq] at h
      rw [← h.1]
      intro t ht
      simp at ht
    | cons i rest => simp [buildF] at h
  | succ f ih =>
    intro q ts qv h
    cases q with
    | nil =>
      simp only [buildF, Option.some.injEq, Prod.mk.injEq] at h
      rw [← h.1]
      intro t ht
      simp at ht
    | cons i rest =>
      rw [buildF] at h
      split at h
      next => simp at h
      next n hg =>
        split at h
        next hnat =>
          split at h
          next => simp at h
          next ts0 q0 hb =>
            simp only [Option.some.injEq, Prod.mk.injEq] at h
            rw [← h.1]
            exact ih _ ts0 q0 hb
        next hnat =>
          split at h
          next => simp at h
          next cs qc hb =>
            split at h
            next => simp at h
            next ts0 qr hb2 =>
              simp only [Option.some.injEq, Prod.mk.injEq] at h
              rw [← h.1]
              intro t ht q2 t2 hsub
              rcases List.mem_cons.mp ht with rfl | ht2
              · cases q2 with
                | nil =>
                  simp only [subAt, Option.some.injEq] at hsub
                  exact ⟨i, n, hg, by rw [← hsub]; rfl⟩
                | cons j q3 =>
                  rw [subAt] at hsub
                  simp only [TreeNode.children_node] at hsub
                  cases hk : cs[j]? with
                  | none => rw [hk] at hsub; simp at hsub
                  | some c =>
                    rw [hk] at hsub
                    exact ih _ cs qc hb c (List.getElem?_mem hk) q3 t2 hsub
              · exact ih _ ts0 qr hb2 t ht2 q2 t2 hsub

/-- A list permuted with a two-element list is one of its two arrangements. -/
theorem perm_pair_cases {α : Type} [DecidableEq α] (l : List α) (a b : α)
    (h : l.Perm [a, b]) : l = [a, b] ∨ l = [b, a] := by
  match l, h.length_eq with
  | [x, y], _ =>
    have hx : x = a ∨ x = b := by
      have hm := h.mem_iff.mp (show x ∈ [x, y] by simp)
      simpa using hm
    have hy : y = a ∨ y = b := by
      have hm := h.mem_iff.mp (show y ∈ [x, y] by simp)
      simpa using hm
    by_cases hab : a = b
    · left
      rcases hx with h1 | h1 <;> rcases hy with h2 | h2 <;> simp [h1, h2, hab]
    · rcases hx with h1 | h1 <;> rcases hy with h2 | h2
      · exfalso
        have hc := h.count_eq b
        rw [h1, h2] at hc
        simp only [List.count_cons, List.count_nil] at hc
        by_cases hba : b = a
        · exact hab hba.symm
        · simp [hba, hab] at hc
      · left
        rw [h1, h2]
      · right
        rw [h1, h2]
      · exfalso
        have hc := h.count_eq a
        rw [h1, h2] at hc
        simp only [List.count_cons, List.count_nil] at hc
        by_cases hba : b = a
        · exact hab hba.symm
        · simp [hba, hab] at hc

/-- Duplicate-free keys bound the matching records to at most one. -/
theorem length_filter_key_le_one (u : String) :
    ∀ l : List BUNode, (l.map BUNode.callUID).Nodup →
      (l.filter (fun b => b.callUID == u)).length ≤ 1 := by
  intro l
  induction l with
  | nil => intro _; simp
  | cons a as ih =>
    intro hnd
    rw [List.filter_cons]
    by_cases hpa : (a.callUID == u) = true
    · rw [if_pos hpa]
      have hau : a.callUID = u := beq_iff_eq.mp hpa
      have hempty : as.filter (fun b => b.callUID == u) = [] := by
        rw [List.filter_eq_nil_iff]
        intro b hb hbe
        have : u ∈ as.map BUNode.callUID := by
          rw [← beq_iff_eq.mp hbe]
          exact List.mem_map_of_mem _ hb
        rw [← hau] at this
        exact (List.nodup_cons.mp (by simpa using hnd)).1 this
      rw [hempty]
      simp
    · rw [if_neg hpa]
      exact ih (List.nodup_cons.mp (by simpa using hnd)).2

/-- The `bottomUpNodes` result of a translated root, characterised: one
record per call UID in first-seen order, with the merged times. -/
theorem bottomUpNodesOf_spec (r : TreeNode) :
    ((bottomUpNodesOf r).map BUNode.callUID).Nodup ∧
    (bottomUpNodesOf r).map BUNode.callUID =
      firstSeen ((remainingNodeInfosOf r).map (fun i => i.1.callUID)) ∧
    ∀ b ∈ bottomUpNodesOf r,
      b.selfTime = recSelfSpec b.callUID (remainingNodeInfosOf r) ∧
      b.totalTime = recTotalSpec b.callUID (remainingNodeInfosOf r) ∧
      ∃ info ∈ remainingNodeInfosOf r,
        info.1.callUID = b.callUID ∧ b.callFrame = info.1.callFrame := by
  have h := bottomUp_foldl_spec (remainingNodeInfosOf r) [] [] (by simp)
    (by rw [firstSeen]; simp [firstSeenFrom]) (by simp)
  simpa [bottomUpNodesOf] using h

/-- C5: for every profile with positive total hit count, the derived
`samplingInterval` equals `(endTime - startTime)` divided by the sum of hit
counts over all flat nodes, and every flat node's `selfTime` equals
`hitCount * samplingInterval / 1000` (milliseconds). -/
theorem c5_sampling_interval_and_self_times (ns : List ProfileNode) (s e : ℚ)
    (sm : List Nat) (td : List ℚ) (hpos : 0 < totalHitCount ns) :
    (mkProfile ns s e sm td).samplingInterval = (e - s) / (totalHitCount ns : ℚ) ∧
    ∀ n ∈ (mkProfile ns s e sm td).nodes,
      n.selfTime = (n.hitCount : ℚ) * (mkProfile ns s e sm td).samplingInterval / 1000 := by
  exact ⟨mkProfile_samplingInterval ns s e sm td,
    fun n hn => selfTime_of_mem_mkProfile ns s e sm td n hn⟩

theorem c5_witness :
    0 < totalHitCount demoRecNodes ∧
    ((mkProfile demoRecNodes 0 2000 [] []).samplingInterval =
        (2000 - 0) / (totalHitCount demoRecNodes : ℚ) ∧
      ∀ n ∈ (mkProfile demoRecNodes 0 2000 [] []).nodes,
        n.selfTime = (n.hitCount : ℚ) *
          (mkProfile demoRecNodes 0 2000 [] []).samplingInterval / 1000) :=
  ⟨by decide, c5_sampling_interval_and_self_times demoRecNodes 0 2000 [] [] (by decide)⟩

/-- C6: for every node of the reconstructed tree, including the root,
`totalTime(node) = selfTime(node) + Σ totalTime(child)`, established by the
bottom-up `sumTotal` pass run after the tree is fully built. -/
theorem c6_total_time_invariant (p : Profile) (fuel : Nat) (r : TreeNode)
    (hr : translatedRootF p fuel = some r) : totalInvTree r = true := by
  obtain ⟨root, ts, q, _, _, hrw⟩ := translatedRootF_eq_sumTotal p fuel r hr
  rw [hrw]
  exact totalInvTree_sumTotalTree _

theorem c6_witness :
    translatedRootF demoRecP 32 = some demoRecRoot ∧ totalInvTree demoRecRoot = true :=
  ⟨rfl, c6_total_time_invariant demoRecP 32 demoRecRoot rfl⟩

/-- C9: aggregation is idempotent: a second `formattedBottomUpProfile()`
invocation on the profile state left by the first yields the identical
records, because the getters rebuild the translated tree from the profile's
unchanged fields on every invocation. -/
theorem c9_idempotent (p : Profile) (fuel : Nat) :
    (formattedRun ((formattedRun p fuel).2) fuel).1 = (formattedRun p fuel).1 := rfl

theorem c9_witness :
    (formattedRun ((formattedRun demoRecP 32).2) 32).1 = (formattedRun demoRecP 32).1 :=
  c9_idempotent demoRecP 32

/-- C10: flat nodes are immutable after `Profile` construction: none of the
getters changes the profile state, and construction itself changes exactly
the `selfTime` and (for anonymous functions) `functionName` fields, keeping
`id`, `hitCount`, `children` and the other call-frame fields. -/
theorem c10_flat_nodes_immutable (ns : List ProfileNode) (s e : ℚ)
    (sm : List Nat) (td : List ℚ) (fuel : Nat) :
    (translatedRootRun (mkProfile ns s e sm td) fuel).2 = mkProfile ns s e sm td ∧
    (remainingNodeInfosRun (mkProfile ns s e sm td) fuel).2 = mkProfile ns s e sm td ∧
    (bottomUpNodesRun (mkProfile ns s e sm td) fuel).2 = mkProfile ns s e sm td ∧
    (formattedRun (mkProfile ns s e sm td) fuel).2 = mkProfile ns s e sm td ∧
    ∀ n2 ∈ (mkProfile ns s e sm td).nodes, ∃ n ∈ ns,
      n2.id = n.id ∧ n2.hitCount = n.hitCount ∧ n2.children = n.children ∧
      n2.callFrame.scriptId = n.callFrame.scriptId ∧
      n2.callFrame.url = n.callFrame.url ∧
      n2.callFrame.lineNumber = n.callFrame.lineNumber ∧
      n2.callFrame.columnNumber = n.callFrame.columnNumber ∧
      n2.callFrame.functionName =
        (if n.callFrame.functionName = "" then anonymousName
         else n.callFrame.functionName) ∧
      n2.selfTime = (n.hitCount : ℚ) * (mkProfile ns s e sm td).samplingInterval / 1000 := by
  refine ⟨rfl, rfl, rfl, rfl, ?_⟩
  intro n2 hn2
  rw [mkProfile_nodes] at hn2
  obtain ⟨m, hm, hid, hhit, hch, hself, _, hsid, hurl, hline, hcol, hname⟩ :=
    mem_nameAnonymousFunctions _ _ hn2
  obtain ⟨n, hn, rfl⟩ := mem_assignInitialSelfTimes _ _ _ hm
  refine ⟨n, hn, by simpa using hid, by simpa using hhit, by simpa using hch,
    by simpa using hsid, by simpa using hurl, by simpa using hline,
    by simpa using hcol, by simpa using hname, ?_⟩
  rw [hself]
  simp [hhit, mkProfile_samplingInterval]

theorem c10_witness :
    (translatedRootRun (mkProfile demoRecNodes 0 2000 [] []) 32).2 =
        mkProfile demoRecNodes 0 2000 [] [] ∧
      (remainingNodeInfosRun (mkProfile demoRecNodes 0 2000 [] []) 32).2 =
        mkProfile demoRecNodes 0 2000 [] [] ∧
      (bottomUpNodesRun (mkProfile demoRecNodes 0 2000 [] []) 32).2 =
        mkProfile demoRecNodes 0 2000 [] [] ∧
      (formattedRun (mkProfile demoRecNodes 0 2000 [] []) 32).2 =
        mkProfile demoRecNodes 0 2000 [] [] ∧
      ∀ n2 ∈ (mkProfile demoRecNodes 0 2000 [] []).nodes, ∃ n ∈ demoRecNodes,
        n2.id = n.id ∧ n2.hitCount = n.hitCount ∧ n2.children = n.children ∧
        n2.callFrame.scriptId = n.callFrame.scriptId ∧
        n2.callFrame.url = n.callFrame.url ∧
        n2.callFrame.lineNumber = n.callFrame.lineNumber ∧
        n2.callFrame.columnNumber = n.callFrame.columnNumber ∧
        n2.callFrame.functionName =
          (if n.callFrame.functionName = "" then anonymousName
           else n.callFrame.functionName) ∧
        n2.selfTime = (n.hitCount : ℚ) *
          (mkProfile demoRecNodes 0 2000 [] []).samplingInterval / 1000 :=
  c10_flat_nodes_immutable demoRecNodes 0 2000 [] [] 32


/-- C4 (divergence witness): a numerically degenerate profile — zero total
hit count — is not rejected.  The constructor divides by the zero total
anyway (`Infinity`/`NaN` in JS, `0` under the rational convention) and the
pipeline silently returns formatted records instead of signalling an
`InvalidProfile` error. -/
theorem c4_zero_hits_not_rejected :
    totalHitCount demoZeroNodes = 0 ∧
    demoZeroP.samplingInterval = (2000 - 0) / ((0 : Nat) : ℚ) ∧
    formattedBottomUpProfileF demoZeroP 32 = some [⟨"A", 0, 0⟩] := by
  refine ⟨by decide, rfl, ?_⟩
  simp [formattedBottomUpProfileF, bottomUpNodesF, translatedRootF, demoZeroP,
    demoZeroNodes, mkProfile, mkProfile_nodes, nameAnonymousFunctions,
    assignInitialSelfTimes, totalHitCount, ProfileNode.create, idLookup, buildF,
    sumTotalTree, sumTotalList, totalSumOf, remainingNodeInfosOf, bottomUpNodesOf,
    walkF, walkVisit, initAgg, treeSize, treeSizeList, buStep, updateLastMatching,
    BUNode.ofTree, OutRec.ofBU, firstSeen, firstSeenFrom, List.foldl, List.map,
    List.filter, List.reverse, List.find?, TreeNode.callUID, CallFrame.callUID,
    ProfileNode.isNativeNode, CallFrame.isNative, TreeNode.children,
    TreeNode.callFrame, TreeNode.selfTime, TreeNode.totalTime, BUNode.callUID]

/-- C2: aggregation yields exactly one record per distinct call UID
occurring at a non-root position of the reconstructed tree — the synthetic
root yields none — and the records appear in first-seen traversal order. -/
theorem c2_one_record_per_identity (p : Profile) (fuel : Nat) (r : TreeNode)
    (hr : translatedRootF p fuel = some r) :
    bottomUpNodesF p fuel = some (bottomUpNodesOf r) ∧
    ((bottomUpNodesOf r).map BUNode.callUID).Nodup ∧
    (∀ u, u ∈ (bottomUpNodesOf r).map BUNode.callUID ↔
      ∃ q, q ∈ allPos r ∧ q ≠ [] ∧ cuAtD r q = u) ∧
    (bottomUpNodesOf r).map BUNode.callUID =
      firstSeen ((remainingNodeInfosOf r).map (fun i => i.1.callUID)) := by
  obtain ⟨hnd, hkeys, _⟩ := bottomUpNodesOf_spec r
  refine ⟨by rw [bottomUpNodesF, hr]; rfl, hnd, ?_, hkeys⟩
  intro u
  rw [hkeys, firstSeen, mem_firstSeenFrom]
  have hmapkeys : (remainingNodeInfosOf r).map (fun i => i.1.callUID) =
      (bfsPositions r).map (cuAtD r) := by
    rw [remainingInfos_eq_bfs, List.map_map]
    rfl
  rw [hmapkeys]
  simp only [List.not_mem_nil, not_false_iff, and_true, List.mem_map]
  constructor
  · rintro ⟨q, hq, rfl⟩
    have hq2 := (mem_allPosList_nonroot r q).mp ((bfsPositions_perm r).mem_iff.mp hq)
    exact ⟨q, hq2.1, hq2.2, rfl⟩
  · rintro ⟨q, hq1, hq2, rfl⟩
    exact ⟨q, (bfsPositions_perm r).mem_iff.mpr
      ((mem_allPosList_nonroot r q).mpr ⟨hq1, hq2⟩), rfl⟩

theorem c2_witness :
    translatedRootF demoRecP 32 = some demoRecRoot ∧
    (bottomUpNodesF demoRecP 32 = some (bottomUpNodesOf demoRecRoot) ∧
      ((bottomUpNodesOf demoRecRoot).map BUNode.callUID).Nodup ∧
      (∀ u, u ∈ (bottomUpNodesOf demoRecRoot).map BUNode.callUID ↔
        ∃ q, q ∈ allPos demoRecRoot ∧ q ≠ [] ∧ cuAtD demoRecRoot q = u) ∧
      (bottomUpNodesOf demoRecRoot).map BUNode.callUID =
        firstSeen ((remainingNodeInfosOf demoRecRoot).map (fun i => i.1.callUID))) :=
  ⟨rfl, c2_one_record_per_identity demoRecP 32 demoRecRoot rfl⟩

/-- C3 (amended): the aggregated records' self times sum to the self times
of the non-root nodes of the reconstructed tree, that is, to the self times
of all flat nodes walked during reconstruction minus the reconstructed
root's self time (the flat root's own self time plus the self times of
native frames folded directly into the root). -/
theorem c3_self_time_conserved (p : Profile) (fuel : Nat) (r : TreeNode)
    (hr : translatedRootF p fuel = some r) :
    ((bottomUpNodesOf r).map BUNode.selfTime).sum = treeSelfSum r - r.selfTime ∧
    ∃ root ts q, p.nodes.head? = some root ∧
      buildF (idLookup p.nodes) fuel root.children.reverse = some (ts, q) ∧
      selfSumF (idLookup p.nodes) fuel root.children.reverse =
        some (treeSelfSum r - root.selfTime) := by
  constructor
  · rw [bottomUpNodesOf, sum_selfTime_foldl _ [] (by simp)]
    rw [remainingInfos_eq_bfs, List.map_map]
    have hcomp : ((fun i : TreeNode × Bool => i.1.selfTime) ∘
        (fun pos => (treeAtD r pos, flagSpec r pos))) =
        (fun q => (treeAtD r q).selfTime) := rfl
    rw [hcomp]
    have hperm := ((bfsPositions_perm r).map (fun q => (treeAtD r q).selfTime)).sum_eq
    rw [hperm]
    have hsum := sum_selfAt_allPos r
    rw [allPos_eq r] at hsum
    simp only [List.map_cons, List.sum_cons] at hsum
    have hroot : treeAtD r [] = r := by simp [treeAtD, subAt]
    rw [hroot] at hsum
    have htail : ((allPosList 0 r.children).map (fun q => (treeAtD r q).selfTime)).sum =
        treeSelfSum r - r.selfTime := by
      rw [← hsum]
      ring
    rw [htail]
    simp
  · obtain ⟨root, ts, q, hhead, hbuild, hrw⟩ := translatedRootF_eq_sumTotal p fuel r hr
    refine ⟨root, ts, q, hhead, hbuild, ?_⟩
    rw [buildF_selfSum _ fuel _ ts q hbuild]
    have hval : treeSelfSum r = root.selfTime + q + treeSelfSumList ts := by
      rw [hrw, treeSelfSum_sumTotalTree]
      simp [treeSelfSum]
    rw [hval]
    congr 1
    ring

theorem c3_counterexample :
    translatedRootF demoNativeP 32 = some demoNativeRoot ∧
    ((bottomUpNodesOf demoNativeRoot).map BUNode.selfTime).sum ≠
      nonNativeFlatSelfSum demoNativeP.nodes := by
  refine ⟨rfl, ?_⟩
  simp [nonNativeFlatSelfSum, demoNativeRoot, translatedRootF, demoNativeP,
    demoNativeNodes, mkProfile, mkProfile_nodes, nameAnonymousFunctions,
    assignInitialSelfTimes, totalHitCount, ProfileNode.create, idLookup, buildF,
    sumTotalTree, sumTotalList, totalSumOf, remainingNodeInfosOf, bottomUpNodesOf,
    walkF, walkVisit, initAgg, treeSize, treeSizeList, buStep, updateLastMatching,
    BUNode.ofTree, firstSeen, firstSeenFrom, List.foldl, List.map,
    List.filter, List.reverse, List.find?, TreeNode.callUID, CallFrame.callUID,
    ProfileNode.isNativeNode, CallFrame.isNative, TreeNode.children,
    TreeNode.callFrame, TreeNode.selfTime, TreeNode.totalTime, BUNode.callUID,
    BUNode.selfTime, nativeMarker]

theorem c3_witness :
    translatedRootF demoNativeP 32 = some demoNativeRoot ∧
    (((bottomUpNodesOf demoNativeRoot).map BUNode.selfTime).sum =
        treeSelfSum demoNativeRoot - demoNativeRoot.selfTime ∧
      ∃ root ts q, demoNativeP.nodes.head? = some root ∧
        buildF (idLookup demoNativeP.nodes) 32 root.children.reverse = some (ts, q) ∧
        selfSumF (idLookup demoNativeP.nodes) 32 root.children.reverse =
          some (treeSelfSum demoNativeRoot - root.selfTime)) :=
  ⟨rfl, c3_self_time_conserved demoNativeP 32 demoNativeRoot rfl⟩

/-- C7: native frames never appear as tree nodes or aggregated records;
a native source node folds its self time into the current effective parent
and hands its children to the walk under that same parent, so a non-native
clone's self time is its flat self time plus the fold sum of the purely
native chains below it. -/
theorem c7_native_frames_folded (p : Profile) (fuel : Nat) (r : TreeNode)
    (hr : translatedRootF p fuel = some r) :
    (∀ q ∈ allPos r, q ≠ [] → (treeAtD r q).callFrame.isNative = false) ∧
    (∀ b ∈ bottomUpNodesOf r, ∃ q, q ∈ allPos r ∧ q ≠ [] ∧ cuAtD r q = b.callUID ∧
      (treeAtD r q).callFrame.isNative = false) ∧
    (∀ f2 i rest n, idLookup p.nodes i = some n → n.isNativeNode = true →
      buildF (idLookup p.nodes) (f2 + 1) (i :: rest) =
        (buildF (idLookup p.nodes) f2 (n.children.reverse ++ rest)).map
          (fun x => (x.1, x.2 + n.selfTime))) ∧
    (∀ f2 i rest n out, idLookup p.nodes i = some n → n.isNativeNode = false →
      buildF (idLookup p.nodes) (f2 + 1) (i :: rest) = some out →
      ∃ cs qc ts qr,
        buildF (idLookup p.nodes) f2 n.children.reverse = some (cs, qc) ∧
        buildF (idLookup p.nodes) f2 rest = some (ts, qr) ∧
        natFoldF (idLookup p.nodes) f2 n.children.reverse = some qc ∧
        out = (TreeNode.node n.callFrame n.id n.hitCount (n.selfTime + qc)
          n.totalTime cs :: ts, qr)) := by
  obtain ⟨root, ts, q, hhead, hbuild, hrw⟩ := translatedRootF_eq_sumTotal p fuel r hr
  have hall : allNonNativeList r.children = true := by
    rw [hrw]
    have hch : (sumTotalTree (TreeNode.node root.callFrame root.id root.hitCount
        (root.selfTime + q) root.totalTime ts)).children = sumTotalList ts := by
      simp [sumTotalTree]
    rw [hch, allNonNative_sumTotalList]
    exact buildF_allNonNative _ fuel _ ts q hbuild
  have hnn : ∀ q2 ∈ allPos r, q2 ≠ [] → (treeAtD r q2).callFrame.isNative = false := by
    intro q2 hq2 hne
    have hsome := (mem_allPos q2 r).mp hq2
    cases hsub : subAt r q2 with
    | none => rw [hsub] at hsome; simp at hsome
    | some t2 =>
      have := nonNative_at_nonroot r hall q2 hne t2 hsub
      have h2 := allNonNativeTree_isNative t2 this
      simp [treeAtD, hsub, h2]
  refine ⟨hnn, ?_, ?_, ?_⟩
  · intro b hb
    obtain ⟨_, _, hspec⟩ := bottomUpNodesOf_spec r
    obtain ⟨_, _, info, hinfo, hcu, _⟩ := hspec b hb
    rw [remainingInfos_eq_bfs] at hinfo
    obtain ⟨q2, hq2, hinfoeq⟩ := List.mem_map.mp hinfo
    have hq3 := (mem_allPosList_nonroot r q2).mp ((bfsPositions_perm r).mem_iff.mp hq2)
    refine ⟨q2, hq3.1, hq3.2, ?_, hnn q2 hq3.1 hq3.2⟩
    rw [cuAtD, ← hcu, ← hinfoeq]
  · intro f2 i rest n hg hnat
    exact buildF_native_step _ f2 i rest n hg hnat
  · intro f2 i rest n out hg hnat hb
    obtain ⟨cs, qc, ts2, qr, h1, h2, h3, h4⟩ := buildF_nonNative_head _ f2 i rest n out hg hnat hb
    exact ⟨cs, qc, ts2, qr, h1, h2, h3, h4⟩

theorem c7_witness :
    translatedRootF demoNativeP 32 = some demoNativeRoot ∧
    ((∀ q ∈ allPos demoNativeRoot, q ≠ [] →
        (treeAtD demoNativeRoot q).callFrame.isNative = false) ∧
      (∀ b ∈ bottomUpNodesOf demoNativeRoot, ∃ q, q ∈ allPos demoNativeRoot ∧
        q ≠ [] ∧ cuAtD demoNativeRoot q = b.callUID ∧
        (treeAtD demoNativeRoot q).callFrame.isNative = false) ∧
      (∀ f2 i rest n, idLookup demoNativeP.nodes i = some n → n.isNativeNode = true →
        buildF (idLookup demoNativeP.nodes) (f2 + 1) (i :: rest) =
          (buildF (idLookup demoNativeP.nodes) f2 (n.children.reverse ++ rest)).map
            (fun x => (x.1, x.2 + n.selfTime))) ∧
      (∀ f2 i rest n out, idLookup demoNativeP.nodes i = some n →
        n.isNativeNode = false →
        buildF (idLookup demoNativeP.nodes) (f2 + 1) (i :: rest) = some out →
        ∃ cs qc ts qr,
          buildF (idLookup demoNativeP.nodes) f2 n.children.reverse = some (cs, qc) ∧
          buildF (idLookup demoNativeP.nodes) f2 rest = some (ts, qr) ∧
          natFoldF (idLookup demoNativeP.nodes) f2 n.children.reverse = some qc ∧
          out = (TreeNode.node n.callFrame n.id n.hitCount (n.selfTime + qc)
            n.totalTime cs :: ts, qr))) :=
  ⟨rfl, c7_native_frames_folded demoNativeP 32 demoNativeRoot rfl⟩

theorem callFrame_sumTotal (t : TreeNode) :
    (sumTotalTree t).callFrame = t.callFrame := by
  cases t
  simp [sumTotalTree]

/-- Every non-root node of the translated tree carries the call frame of
some flat node of the profile. -/
theorem treeFrame_from_flat (p : Profile) (fuel : Nat) (r : TreeNode)
    (hr : translatedRootF p fuel = some r) (q2 : List Nat) (hne : q2 ≠ [])
    (t2 : TreeNode) (hsub : subAt r q2 = some t2) :
    ∃ n ∈ p.nodes, t2.callFrame = n.callFrame := by
  obtain ⟨root, ts, qv, hhead, hbuild, hrw⟩ := translatedRootF_eq_sumTotal p fuel r hr
  rw [hrw, subAt_sumTotal] at hsub
  cases hsub2 : subAt (TreeNode.node root.callFrame root.id root.hitCount
      (root.selfTime + qv) root.totalTime ts) q2 with
  | none => rw [hsub2] at hsub; simp at hsub
  | some t3 =>
    rw [hsub2] at hsub
    rw [Option.map_some'] at hsub
    simp only [Option.some.injEq] at hsub
    cases q2 with
    | nil => exact absurd rfl hne
    | cons j q3 =>
      rw [subAt] at hsub2
      simp only [TreeNode.children_node] at hsub2
      cases hk : ts[j]? with
      | none => rw [hk] at hsub2; simp at hsub2
      | some c =>
        rw [hk] at hsub2
        obtain ⟨i, n, hgin, hframe⟩ :=
          buildF_frames (idLookup p.nodes) fuel _ ts qv hbuild c
            (List.getElem?_mem hk) q3 t3 hsub2
        have hmem : n ∈ p.nodes := by
          have := List.mem_of_find?_eq_some hgin
          exact List.mem_reverse.mp this
        refine ⟨n, hmem, ?_⟩
        rw [← hsub, callFrame_sumTotal, hframe]

/-- C8: anonymous flat nodes are renamed to the fixed placeholder during
construction, and the identity used by aggregation is computed from the
renamed frame, so anonymous call sites sharing script id and line number
collapse into at most one record, reported under the placeholder name
(assuming no other call site collides with the placeholder's key). -/
theorem c8_anonymous_collapse (ns : List ProfileNode) (s e : ℚ) (sm : List Nat)
    (td : List ℚ) (fuel : Nat) (r : TreeNode) (S : String) (L : Int)
    (hr : translatedRootF (mkProfile ns s e sm td) fuel = some r)
    (honly : ∀ n ∈ (mkProfile ns s e sm td).nodes,
      n.callUID = anonymousName ++ "@" ++ S ++ ":" ++ toString L →
      n.callFrame.functionName = anonymousName) :
    (∀ n ∈ ns, n.callFrame.functionName = "" → n.callFrame.scriptId = S →
      n.callFrame.lineNumber = L →
      ∃ n2 ∈ (mkProfile ns s e sm td).nodes,
        n2.id = n.id ∧ n2.callFrame.functionName = anonymousName ∧
        n2.callUID = anonymousName ++ "@" ++ S ++ ":" ++ toString L) ∧
    ((bottomUpNodesOf r).filter
      (fun b => b.callUID == anonymousName ++ "@" ++ S ++ ":" ++ toString L)).length ≤ 1 ∧
    (∀ b ∈ bottomUpNodesOf r,
      b.callUID = anonymousName ++ "@" ++ S ++ ":" ++ toString L →
      b.callFrame.functionName = anonymousName) := by
  obtain ⟨hnd, hkeys, hspec⟩ := bottomUpNodesOf_spec r
  refine ⟨?_, length_filter_key_le_one _ _ hnd, ?_⟩
  · intro n hn hname hsid hline
    refine ⟨{ n with
        callFrame := { n.callFrame with functionName := anonymousName },
        selfTime := (n.hitCount : ℚ) *
          ((e - s) / (totalHitCount ns : ℚ)) / 1000 }, ?_, by simp, by simp, ?_⟩
    · rw [mkProfile_nodes]
      rw [nameAnonymousFunctions, assignInitialSelfTimes, List.map_map]
      refine List.mem_map.mpr ⟨n, hn, ?_⟩
      simp [Function.comp, hname]
    · simp [ProfileNode.callUID, CallFrame.callUID, hsid, hline]
  · intro b hb hbkey
    obtain ⟨_, _, info, hinfo, hcu, hframe⟩ := hspec b hb
    rw [remainingInfos_eq_bfs] at hinfo
    obtain ⟨q2, hq2, hinfoeq⟩ := List.mem_map.mp hinfo
    have hq3 := (mem_allPosList_nonroot r q2).mp ((bfsPositions_perm r).mem_iff.mp hq2)
    have hsome := (mem_allPos q2 r).mp hq3.1
    cases hsub : subAt r q2 with
    | none => rw [hsub] at hsome; simp at hsome
    | some t2 =>
      obtain ⟨n, hnmem, hnframe⟩ :=
        treeFrame_from_flat (mkProfile ns s e sm td) fuel r hr q2 hq3.2 t2 hsub
      have ht2 : info.1 = t2 := by
        rw [← hinfoeq]
        simp [treeAtD, hsub]
      have hnkey : n.callUID = anonymousName ++ "@" ++ S ++ ":" ++ toString L := by
        rw [ProfileNode.callUID, ← hnframe, ← TreeNode.callUID, ← ht2]
        rw [hcu, hbkey]
      have := honly n hnmem hnkey
      rw [hframe, ht2, hnframe]
      exact this

/-- Witness for C8 at the two-anonymous-sites demo profile: the renaming
hypothesis holds and the collapse conclusion follows at script id "5",
line 7. -/
theorem c8_witness :
    translatedRootF (mkProfile demoAnonNodes 0 2000 [] []) 32 = some demoAnonRoot ∧
    (∀ n ∈ (mkProfile demoAnonNodes 0 2000 [] []).nodes,
      n.callUID = anonymousName ++ "@" ++ "5" ++ ":" ++ toString (7 : Int) →
      n.callFrame.functionName = anonymousName) ∧
    ((∀ n ∈ demoAnonNodes, n.callFrame.functionName = "" →
      n.callFrame.scriptId = "5" → n.callFrame.lineNumber = 7 →
      ∃ n2 ∈ (mkProfile demoAnonNodes 0 2000 [] []).nodes,
        n2.id = n.id ∧ n2.callFrame.functionName = anonymousName ∧
        n2.callUID = anonymousName ++ "@" ++ "5" ++ ":" ++ toString (7 : Int)) ∧
    ((bottomUpNodesOf demoAnonRoot).filter
      (fun b => b.callUID ==
        anonymousName ++ "@" ++ "5" ++ ":" ++ toString (7 : Int))).length ≤ 1 ∧
    (∀ b ∈ bottomUpNodesOf demoAnonRoot,
      b.callUID = anonymousName ++ "@" ++ "5" ++ ":" ++ toString (7 : Int) →
      b.callFrame.functionName = anonymousName)) := by
  have honly : ∀ n ∈ (mkProfile demoAnonNodes 0 2000 [] []).nodes,
      n.callUID = anonymousName ++ "@" ++ "5" ++ ":" ++ toString (7 : Int) →
      n.callFrame.functionName = anonymousName := by decide
  exact ⟨rfl, honly,
    c8_anonymous_collapse demoAnonNodes 0 2000 [] [] 32 demoAnonRoot "5" 7 rfl honly⟩

/-- C1: the aggregation pass flags a non-root occurrence as
`totalAccountedFor` exactly when some non-root proper ancestor carries the
same call UID (the emitted infos are the BFS positions paired with that
flag), and the merge pass adds an occurrence's total time only when the
flag is false; hence for a directly self-recursive call site whose two
occurrences are nested, the outer occurrence is unflagged, the inner one is
flagged, and the identity's aggregated record carries exactly the outer
occurrence's total time (while its self time sums both occurrences). -/
theorem c1_recursive_total_time (p : Profile) (fuel : Nat) (r : TreeNode)
    (u : String) (p1 p2 : List Nat)
    (hr : translatedRootF p fuel = some r)
    (hocc : (allPos r).filter
      (fun q => !q.isEmpty && (cuAtD r q == u)) = [p1, p2])
    (hpre : p2.take p1.length = p1) (hlt : p1.length < p2.length) :
    remainingNodeInfosOf r =
      (bfsPositions r).map (fun q => (treeAtD r q, flagSpec r q)) ∧
    flagSpec r p1 = false ∧ flagSpec r p2 = true ∧
    (∃ b ∈ bottomUpNodesOf r, b.callUID = u) ∧
    (∀ b ∈ bottomUpNodesOf r, b.callUID = u →
      b.totalTime = (treeAtD r p1).totalTime ∧
      b.selfTime = (treeAtD r p1).selfTime + (treeAtD r p2).selfTime) := by
  have hmemiff : ∀ q : List Nat,
      (q ∈ allPos r ∧ (!q.isEmpty && (cuAtD r q == u)) = true) ↔
        (q = p1 ∨ q = p2) := by
    intro q
    constructor
    · rintro ⟨hq, hpq⟩
      have hmem : q ∈ [p1, p2] := by
        rw [← hocc]
        exact List.mem_filter.mpr ⟨hq, hpq⟩
      simpa using hmem
    · intro h
      have hmem : q ∈ (allPos r).filter
          (fun q => !q.isEmpty && (cuAtD r q == u)) := by
        rw [hocc]
        rcases h with rfl | rfl <;> simp
      exact List.mem_filter.mp hmem
  obtain ⟨hp1mem, hp1pred⟩ := (hmemiff p1).mpr (Or.inl rfl)
  obtain ⟨hp2mem, hp2pred⟩ := (hmemiff p2).mpr (Or.inr rfl)
  rw [Bool.and_eq_true, Bool.not_eq_true', List.isEmpty_eq_false, beq_iff_eq]
    at hp1pred hp2pred
  obtain ⟨hp1ne, hp1cu⟩ := hp1pred
  obtain ⟨hp2ne, hp2cu⟩ := hp2pred
  have hfperm : ((bfsPositions r).filter
      (fun q => !q.isEmpty && (cuAtD r q == u))).Perm [p1, p2] := by
    have h1 := (bfsPositions_perm r).filter
      (fun q => !q.isEmpty && (cuAtD r q == u))
    have h2 : (allPosList 0 r.children).filter
        (fun q => !q.isEmpty && (cuAtD r q == u)) = [p1, p2] := by
      have h3 := hocc
      rw [allPos_eq] at h3
      simp only [List.filter_cons, List.isEmpty_nil, Bool.not_true,
        Bool.false_and, Bool.false_eq_true, if_false] at h3
      exact h3
    rw [h2] at h1
    exact h1
  have hsorted : List.Pairwise (fun a b : List Nat => a.length ≤ b.length)
      ((bfsPositions r).filter (fun q => !q.isEmpty && (cuAtD r q == u))) :=
    (bfsPositions_sorted r).sublist (List.filter_sublist _)
  have hfeq : (bfsPositions r).filter
      (fun q => !q.isEmpty && (cuAtD r q == u)) = [p1, p2] := by
    rcases perm_pair_cases _ p1 p2 hfperm with h | h
    · exact h
    · exfalso
      rw [h] at hsorted
      have hle := (List.pairwise_cons.mp hsorted).1 p1 (by simp)
      omega
  have hflag1 : flagSpec r p1 = false := by
    by_contra hft
    have hft' : flagSpec r p1 = true := by
      revert hft
      cases flagSpec r p1 <;> simp
    obtain ⟨j, hj, hne', hcu'⟩ := (flagSpec_iff r p1).mp hft'
    have hp1some : (subAt r p1).isSome := (mem_allPos p1 r).mp hp1mem
    have hqmem : p1.take j ∈ allPos r :=
      (mem_allPos _ r).mpr (subAt_take_isSome r p1 j hp1some)
    have hqpred : (!(p1.take j).isEmpty && (cuAtD r (p1.take j) == u)) = true := by
      have h1 : (p1.take j).isEmpty = false := List.isEmpty_eq_false.mpr hne'
      rw [h1]
      simp [hcu', hp1cu]
    have hlenq : (p1.take j).length = j := by
      rw [List.length_take]
      omega
    rcases (hmemiff _).mp ⟨hqmem, hqpred⟩ with he | he
    · have hlen := congrArg List.length he
      rw [hlenq] at hlen
      omega
    · have hlen := congrArg List.length he
      rw [hlenq] at hlen
      omega
  have hflag2 : flagSpec r p2 = true := by
    refine (flagSpec_iff r p2).mpr ⟨p1.length, hlt, ?_, ?_⟩
    · rw [hpre]
      exact hp1ne
    · rw [hpre, hp1cu, hp2cu]
  have hoccs : occsOf u (remainingNodeInfosOf r) =
      [(treeAtD r p1, false), (treeAtD r p2, true)] := by
    rw [remainingInfos_eq_bfs, occsOf, List.filter_map]
    have hfun : ((fun i : TreeNode × Bool => i.1.callUID == u) ∘
        (fun q => (treeAtD r q, flagSpec r q))) =
          fun q => cuAtD r q == u := by
      funext q
      simp [Function.comp, cuAtD]
    rw [hfun]
    have hswitch : (bfsPositions r).filter (fun q => cuAtD r q == u) =
        (bfsPositions r).filter (fun q => !q.isEmpty && (cuAtD r q == u)) := by
      refine List.filter_congr ?_
      intro q hq
      have hq2 : q ≠ [] := ((mem_allPosList_nonroot r q).mp
        ((bfsPositions_perm r).mem_iff.mp hq)).2
      have h3 : q.isEmpty = false := List.isEmpty_eq_false.mpr hq2
      simp [h3]
    rw [hswitch, hfeq]
    simp [hflag1, hflag2]
  obtain ⟨hnd, hkeys, hspec⟩ := bottomUpNodesOf_spec r
  refine ⟨remainingInfos_eq_bfs r, hflag1, hflag2, ?_, ?_⟩
  · have hu : u ∈ (bottomUpNodesOf r).map BUNode.callUID := by
      rw [hkeys, firstSeen, mem_firstSeenFrom]
      refine ⟨(keys_mem_iff_occs u _).mpr ?_, by simp⟩
      rw [hoccs]
      simp
    obtain ⟨b, hb, hbcu⟩ := List.mem_map.mp hu
    exact ⟨b, hb, hbcu⟩
  · intro b hb hbcu
    obtain ⟨hself, htotal, _⟩ := hspec b hb
    rw [hbcu] at hself htotal
    constructor
    · rw [htotal]
      unfold recTotalSpec
      rw [hoccs]
      simp
    · rw [hself]
      unfold recSelfSpec
      rw [hoccs]
      simp

/-- Witness for C1 at the self-recursive demo profile: the call UID
"A@1:10" occurs exactly at the nested positions `[0]` and `[0, 0, 0]`, and
the aggregated record takes the outer occurrence's total time. -/
theorem c1_witness :
    translatedRootF demoRecP 32 = some demoRecRoot ∧
    (allPos demoRecRoot).filter
      (fun q => !q.isEmpty && (cuAtD demoRecRoot q == "A@1:10")) =
        [[0], [0, 0, 0]] ∧
    ([0, 0, 0] : List Nat).take ([0] : List Nat).length = [0] ∧
    ([0] : List Nat).length < ([0, 0, 0] : List Nat).length ∧
    (remainingNodeInfosOf demoRecRoot =
      (bfsPositions demoRecRoot).map
        (fun q => (treeAtD demoRecRoot q, flagSpec demoRecRoot q)) ∧
    flagSpec demoRecRoot [0] = false ∧ flagSpec demoRecRoot [0, 0, 0] = true ∧
    (∃ b ∈ bottomUpNodesOf demoRecRoot, b.callUID = "A@1:10") ∧
    (∀ b ∈ bottomUpNodesOf demoRecRoot, b.callUID = "A@1:10" →
      b.totalTime = (treeAtD demoRecRoot [0]).totalTime ∧
      b.selfTime = (treeAtD demoRecRoot [0]).selfTime +
        (treeAtD demoRecRoot [0, 0, 0]).selfTime)) := by
  have hocc : (allPos demoRecRoot).filter
      (fun q => !q.isEmpty && (cuAtD demoRecRoot q == "A@1:10")) =
        [[0], [0, 0, 0]] := by decide
  exact ⟨rfl, hocc, by decide, by decide,
    c1_recursive_total_time demoRecP 32 demoRecRoot "A@1:10" [0] [0, 0, 0]
      rfl hocc (by decide) (by decide)⟩
